import Mathlib

/-!
Verification of the rustomaton regular-language library (`src/nfa.rs`,
`src/dfa.rs`, `src/regex.rs`, `src/parser.rs`).

Shallow embedding conventions:
* `usize` state ids become `Nat` (states are dense indices `0..n`).
* `HashSet` becomes `Finset` (iteration order of a Rust `HashSet` is
  unspecified; every place where the source iterates a set and the result
  depends on the order only through the *set* of produced elements, we
  iterate the canonical sorted enumeration `Finset.sort`).
* `HashMap V (Vec usize)` (one row of the transition table) becomes an
  association list `List (V × List Nat)` with pairwise-distinct keys.
* fallible operations (`from_raw`) return `Except`; a Rust panic
  (usize underflow in `repeat`) is modelled as `Option.none`.
-/

set_option maxHeartbeats 1000000
set_option linter.unusedSectionVars false

namespace Rustomaton

/-- One row of the sparse transition table: `HashMap<V, Vec<usize>>`. -/
abbrev TransRow (V : Type) := List (V × List Nat)

/-- `NFA` from `src/nfa.rs`: alphabet, initial states, final states and a
per-state sparse transition map. -/
structure NFA (V : Type) where
  alphabet : Finset V
  initials : Finset Nat
  finals : Finset Nat
  transitions : List (TransRow V)
  deriving DecidableEq

/-- `DFA` from `src/dfa.rs`: one initial state, at most one successor per
(state, symbol). -/
structure DFA (V : Type) where
  alphabet : Finset V
  initial : Nat
  finals : Finset Nat
  transitions : List (List (V × Nat))
  deriving DecidableEq

namespace RowOps

variable {V : Type} [DecidableEq V]

/-- `map.get(&v)` on an association-list row. -/
def lookupRow (row : TransRow V) (a : V) : Option (List Nat) :=
  (row.find? (fun kv => kv.1 = a)).map (fun kv => kv.2)

/-- Successor list of a row for a letter, `[]` when the key is absent. -/
def rowSuccs (row : TransRow V) (a : V) : List Nat :=
  (lookupRow row a).getD []

@[simp] theorem lookupRow_nil (a : V) : lookupRow ([] : TransRow V) a = none := rfl

theorem lookupRow_cons (k : V) (l : List Nat) (row : TransRow V) (a : V) :
    lookupRow ((k, l) :: row) a = if k = a then some l else lookupRow row a := by
  by_cases h : k = a <;> simp [lookupRow, List.find?, h]

end RowOps

open RowOps

namespace NFA

variable {V : Type} [DecidableEq V]

/-- Set of successors of state `q` for letter `a` (`self.transitions[q].get(&a)`,
defaulting to no successors when `q` is out of range, which well-formedness
excludes). -/
def succsOf (A : NFA V) (q : Nat) (a : V) : Finset Nat :=
  (rowSuccs (A.transitions.getD q []) a).toFinset

/-- One step of the streaming simulation of `run`: union of `δ(q, a)` over the
current frontier. -/
def stepSet (A : NFA V) (S : Finset Nat) (a : V) : Finset Nat :=
  S.biUnion (fun q => A.succsOf q a)

/-- The loop of `NFA::run`: frontier simulation with early exit on an empty
frontier. -/
def runFrom (A : NFA V) : List V → Finset Nat → Bool
  | [], S => decide (S ∩ A.finals).Nonempty
  | a :: w, S =>
      if A.stepSet S a = ∅ then false else A.runFrom w (A.stepSet S a)

/-- `NFA::run` from `src/nfa.rs`: `false` when there is no initial state,
otherwise the frontier simulation seeded with the initials. -/
def run (A : NFA V) (w : List V) : Bool :=
  if A.initials = ∅ then false else A.runFrom w A.initials

/-- `PathN A p w q`: the automaton has a `w`-labelled path from state `p` to
state `q`. -/
def PathN (A : NFA V) : Nat → List V → Nat → Prop
  | p, [], q => p = q
  | p, a :: w, q => ∃ t ∈ A.succsOf p a, PathN A t w q

@[simp] theorem pathN_nil (A : NFA V) (p q : Nat) : A.PathN p [] q ↔ p = q := Iff.rfl

@[simp] theorem pathN_cons (A : NFA V) (p q : Nat) (a : V) (w : List V) :
    A.PathN p (a :: w) q ↔ ∃ t ∈ A.succsOf p a, A.PathN t w q := Iff.rfl

theorem pathN_append {A : NFA V} {p q r : Nat} {u v : List V}
    (h₁ : A.PathN p u q) (h₂ : A.PathN q v r) : A.PathN p (u ++ v) r := by
  induction u generalizing p with
  | nil => simpa [PathN] using h₁ ▸ h₂
  | cons a u ih =>
      obtain ⟨t, ht, hp⟩ := h₁
      exact ⟨t, ht, ih hp⟩

theorem pathN_append_iff (A : NFA V) (p r : Nat) (u v : List V) :
    A.PathN p (u ++ v) r ↔ ∃ q, A.PathN p u q ∧ A.PathN q v r := by
  induction u generalizing p with
  | nil => simp [PathN]
  | cons a u ih =>
      constructor
      · rintro ⟨t, ht, hp⟩
        obtain ⟨q, h₁, h₂⟩ := (ih t).mp hp
        exact ⟨q, ⟨t, ht, h₁⟩, h₂⟩
      · rintro ⟨q, ⟨t, ht, h₁⟩, h₂⟩
        exact ⟨t, ht, (ih t).mpr ⟨q, h₁, h₂⟩⟩

theorem runFrom_iff_path (A : NFA V) (w : List V) (S : Finset Nat) :
    A.runFrom w S = true ↔ ∃ p ∈ S, ∃ f ∈ A.finals, A.PathN p w f := by
  induction w generalizing S with
  | nil =>
      simp only [runFrom, decide_eq_true_eq, Finset.Nonempty, Finset.mem_inter, PathN]
      constructor
      · rintro ⟨x, hx, hf⟩; exact ⟨x, hx, x, hf, rfl⟩
      · rintro ⟨p, hp, f, hf, rfl⟩; exact ⟨p, hp, hf⟩
  | cons a w ih =>
      simp only [runFrom]
      by_cases hT : A.stepSet S a = ∅
      · rw [if_pos hT]
        refine iff_of_false (by simp) ?_
        rintro ⟨p, hp, f, hf, t, ht, hpath⟩
        have : t ∈ A.stepSet S a := Finset.mem_biUnion.mpr ⟨p, hp, ht⟩
        simp [hT] at this
      · rw [if_neg hT, ih]
        constructor
        · rintro ⟨t, htS, f, hf, hpath⟩
          obtain ⟨p, hp, ht⟩ := Finset.mem_biUnion.mp htS
          exact ⟨p, hp, f, hf, t, ht, hpath⟩
        · rintro ⟨p, hp, f, hf, t, ht, hpath⟩
          exact ⟨t, Finset.mem_biUnion.mpr ⟨p, hp, ht⟩, f, hf, hpath⟩

/-- `run` accepts exactly the words labelling a path from an initial to a
final state. -/
theorem run_iff_path (A : NFA V) (w : List V) :
    A.run w = true ↔ ∃ i ∈ A.initials, ∃ f ∈ A.finals, A.PathN i w f := by
  unfold run
  by_cases h : A.initials = ∅
  · simp [h]
  · rw [if_neg h, runFrom_iff_path]

end NFA

namespace NFA

variable {V : Type} [LinearOrder V]

/-- `NFA::new_empty`. -/
def new_empty (alphabet : Finset V) : NFA V :=
  { alphabet := alphabet, initials := ∅, finals := ∅, transitions := [] }

/-- `NFA::new_full`: one state, initial and final, self-loop on every symbol. -/
def new_full (alphabet : Finset V) : NFA V :=
  { alphabet := alphabet, initials := {0}, finals := {0},
    transitions := [(alphabet.sort (· ≤ ·)).map (fun v => (v, [0]))] }

/-- `NFA::new_length`: accepts all words of the given length. -/
def new_length (alphabet : Finset V) (len : Nat) : NFA V :=
  { alphabet := alphabet, initials := {0}, finals := {len},
    transitions :=
      (List.range len).map (fun i => (alphabet.sort (· ≤ ·)).map (fun v => (v, [i + 1])))
        ++ [[]] }

/-- `NFA::new_matching`: accepts only the given word. -/
def new_matching (alphabet : Finset V) (word : List V) : NFA V :=
  { alphabet := alphabet, initials := {0}, finals := {word.length},
    transitions := word.enum.map (fun p => [(p.2, [p.1 + 1])]) ++ [[]] }

/-- `NFA::new_empty_word`: one state, initial and final, no transitions. -/
def new_empty_word (alphabet : Finset V) : NFA V :=
  { alphabet := alphabet, initials := {0}, finals := {0}, transitions := [[]] }

end NFA

/-- The validation errors of `from_raw` (`src/automaton.rs`). -/
inductive FromRawError (V : Type) where
  | InvalidInitial (s : Nat)
  | InvalidFinal (s : Nat)
  | UnknownLetter (v : V)
  | InvalidTransition (s : Nat) (v : V) (d : Nat)
  deriving DecidableEq

namespace NFA

variable {V : Type} [LinearOrder V]

/-- First key of a row outside the alphabet
(`map.keys().find(|x| !alphabet.contains(x))`). -/
def findBadKey (alphabet : Finset V) : TransRow V → Option V
  | [] => none
  | (k, _) :: rest => if k ∈ alphabet then findBadKey alphabet rest else some k

/-- First out-of-range destination of a row, with its letter
(`destinations.iter().find(|x| x >= len)`). -/
def findBadDest (len : Nat) : TransRow V → Option (V × Nat)
  | [] => none
  | (k, dests) :: rest =>
      match dests.find? (fun d => decide (len ≤ d)) with
      | some d => some (k, d)
      | none => findBadDest len rest

/-- The per-state validation loop of `NFA::from_raw`: for each state, first
scan for an unknown letter, then for an out-of-range destination. -/
def checkRows (alphabet : Finset V) (len : Nat) : Nat → List (TransRow V) →
    Option (FromRawError V)
  | _, [] => none
  | state, row :: rest =>
      match findBadKey alphabet row with
      | some k => some (.UnknownLetter k)
      | none =>
          match findBadDest len row with
          | some kd => some (.InvalidTransition state kd.1 kd.2)
          | none => checkRows alphabet len (state + 1) rest

/-- `NFA::from_raw`: validate initials, then finals, then the transition rows.
Which offending element of a `HashSet` is reported depends on unspecified
iteration order in Rust; we report the smallest one. -/
def from_raw (alphabet : Finset V) (initials finals : Finset Nat)
    (transitions : List (TransRow V)) : Except (FromRawError V) (NFA V) :=
  if h : (initials.filter (fun s => transitions.length ≤ s)).Nonempty then
    .error (.InvalidInitial ((initials.filter (fun s => transitions.length ≤ s)).min' h))
  else if h2 : (finals.filter (fun s => transitions.length ≤ s)).Nonempty then
    .error (.InvalidFinal ((finals.filter (fun s => transitions.length ≤ s)).min' h2))
  else
    match checkRows alphabet transitions.length 0 transitions with
    | some e => .error e
    | none => .ok ⟨alphabet, initials, finals, transitions⟩

/-- `utils::shift_transitions` applied to one row. -/
def shiftRow (row : TransRow V) (l : Nat) : TransRow V :=
  row.map (fun kv => (kv.1, kv.2.map (· + l)))

/-- `utils::shift_transitions`: shift every destination by `l`. -/
def shift_transitions (tr : List (TransRow V)) (l : Nat) : List (TransRow V) :=
  tr.map (fun row => shiftRow row l)

/-- `NFA::unite`: disjoint union, shifting the right automaton. -/
def unite (a b : NFA V) : NFA V :=
  let l := a.transitions.length
  { alphabet := a.alphabet ∪ b.alphabet
    initials := a.initials ∪ b.initials.image (· + l)
    finals := a.finals ∪ b.finals.image (· + l)
    transitions := a.transitions ++ shift_transitions b.transitions l }

/-- `map.entry(v).or_insert_with(Vec::new).append(ts)` on a row. -/
def updateAppend (row : TransRow V) (a : V) (ts : List Nat) : TransRow V :=
  match row with
  | [] => [(a, ts)]
  | (k, l) :: rest => if k = a then (k, l ++ ts) :: rest else (k, l) :: updateAppend rest a ts

/-- Append a batch of bridge edges to one row. -/
def addEdges (row : TransRow V) (edges : List (V × List Nat)) : TransRow V :=
  edges.foldl (fun r kv => updateAppend r kv.1 kv.2) row

/-- Apply the bridge edges to every final row of the left automaton
(the mutation loop of `NFA::concatenate`). -/
def bridgeRows (finals : Finset Nat) (edges : List (V × List Nat)) :
    Nat → List (TransRow V) → List (TransRow V)
  | _, [] => []
  | i, row :: rest =>
      (if i ∈ finals then addEdges row edges else row) :: bridgeRows finals edges (i + 1) rest

/-- `NFA::concatenate`: shift `b` by `|a|`; copy every out-edge of a (shifted)
initial of `b` onto every final of `a`; new finals are `b`'s when they are
disjoint from `b`'s initials and the union of both final sets otherwise. -/
def concatenate (a b : NFA V) : NFA V :=
  let l := a.transitions.length
  let bInit := b.initials.image (· + l)
  let bFin := b.finals.image (· + l)
  let bTrans := shift_transitions b.transitions l
  let edges := (b.initials.sort (· ≤ ·)).flatMap (fun i => bTrans.getD i [])
  { alphabet := a.alphabet ∪ b.alphabet
    initials := a.initials
    finals := if Disjoint bFin bInit then bFin else a.finals ∪ bFin
    transitions := bridgeRows a.finals edges 0 a.transitions ++ bTrans }

/-- Keys appearing in the out-edges of some initial state (the key set of the
`map` built by `NFA::kleene`). -/
def kleeneKeys (A : NFA V) : Finset V :=
  A.initials.biUnion (fun i => ((A.transitions.getD i []).map (fun kv => kv.1)).toFinset)

/-- Merged successor set of the initial states for one letter (the value the
`map` of `NFA::kleene` associates to that letter). -/
def kleeneOut (A : NFA V) (k : V) : Finset Nat :=
  A.initials.biUnion (fun i => (RowOps.rowSuccs (A.transitions.getD i []) k).toFinset)

/-- The mutation `NFA::kleene` performs on one final row: for every key of the
merged map, replace the entry by the union of its old value and the merged
successors (a `HashSet` in the source, enumerated here in sorted order). -/
def mergeRow (A : NFA V) (row : TransRow V) : TransRow V :=
  row.map (fun kv =>
      if kv.1 ∈ A.kleeneKeys then
        (kv.1, (kv.2.toFinset ∪ A.kleeneOut kv.1).sort (· ≤ ·))
      else kv)
    ++ ((A.kleeneKeys.sort (· ≤ ·)).filter
        (fun k => ¬ (row.map (fun kv => kv.1)).contains k)).map
      (fun k => (k, (A.kleeneOut k).sort (· ≤ ·)))

/-- Apply `mergeRow` to the final rows (the finals loop of `NFA::kleene`). -/
def kleeneRows (A : NFA V) : Nat → List (TransRow V) → List (TransRow V)
  | _, [] => []
  | i, row :: rest =>
      (if i ∈ A.finals then mergeRow A row else row) :: kleeneRows A (i + 1) rest

/-- `NFA::kleene`: add one fresh state whose out-edges are the merged
out-edges of the old initials, give every old final those same extra edges,
make the fresh state the sole initial and also final. -/
def kleene (A : NFA V) : NFA V :=
  let l := A.transitions.length
  { alphabet := A.alphabet
    initials := {l}
    finals := insert l A.finals
    transitions :=
      kleeneRows A 0 A.transitions
        ++ [(A.kleeneKeys.sort (· ≤ ·)).map (fun k => (k, (A.kleeneOut k).sort (· ≤ ·)))] }

/-- `NFA::at_most`: ensure the automaton accepts the empty word (fresh
isolated initial+final state when needed), then concatenate `u` copies. -/
def at_most (A : NFA V) (u : Nat) : NFA V :=
  let A1 :=
    if ¬ ∃ x ∈ A.initials, x ∈ A.finals then
      { A with initials := insert A.transitions.length A.initials,
               finals := insert A.transitions.length A.finals,
               transitions := A.transitions ++ [[]] }
    else A
  (List.range u).foldl (fun acc _ => acc.concatenate A1) (new_empty_word A1.alphabet)

/-- `NFA::at_least`: `u` copies of `self` then the Kleene star of `self`. -/
def at_least (A : NFA V) (u : Nat) : NFA V :=
  ((List.range u).foldl (fun acc _ => acc.concatenate A)
      (new_empty_word A.alphabet)).concatenate A.kleene

/-- A `RangeBounds<usize>` argument of `NFA::repeat`. -/
inductive Bound where
  | Included (n : Nat)
  | Excluded (n : Nat)
  | Unbounded
  deriving DecidableEq

/-- A range of `usize` bounds. -/
structure RangeB where
  start : Bound
  stop : Bound
  deriving DecidableEq

/-- The normalised start of a `RangeBounds<usize>`. -/
def rangeStart : Bound → Nat
  | .Included a => a
  | .Excluded a => a + 1
  | .Unbounded => 0

/-- The normalised (inclusive) end of a `RangeBounds<usize>`, assuming the
`Excluded 0` underflow is excluded. -/
def rangeStop : Bound → Option Nat
  | .Included a => some a
  | .Excluded a => some (a - 1)
  | .Unbounded => none

/-- The body of `NFA::repeat` after normalising the bounds: empty NFA when
the range is empty, `at_least` when unbounded, otherwise `start` copies
concatenated with `at_most (stop - start)`. -/
def repeatTot (A : NFA V) (start : Nat) (stop : Option Nat) : NFA V :=
  match stop with
  | some e =>
      if e < start then new_empty A.alphabet
      else
        ((List.range start).foldl (fun acc _ => acc.concatenate A)
            (new_empty_word A.alphabet)).concatenate (A.at_most (e - start))
  | none => A.at_least start

/-- `NFA::repeat`. The end bound `Excluded(a)` is normalised by the source as
`a - 1` on `usize`, which underflows (panics in a debug build) when `a = 0`;
the panic is modelled by `none`. -/
def repeat_range (A : NFA V) (r : RangeB) : Option (NFA V) :=
  match r.stop with
  | .Excluded 0 => none
  | _ => some (repeatTot A (rangeStart r.start) (rangeStop r.stop))

/-- Sources `i` with an edge `i --k--> e` (one entry of the transposed
transition table built by `NFA::reverse`). -/
def revSources (A : NFA V) (k : V) (e : Nat) : List Nat :=
  (List.range A.transitions.length).filter
    (fun i => e ∈ RowOps.rowSuccs (A.transitions.getD i []) k)

/-- All keys appearing somewhere in the transition table. -/
def allKeys (A : NFA V) : Finset V :=
  (A.transitions.flatMap (fun row => row.map (fun kv => kv.1))).toFinset

/-- `NFA::reverse`: transpose the transition table and swap initials and
finals. A transposed row has an entry for a key exactly when some source
pushed into it; the entry lists the pushing sources. -/
def reverse (A : NFA V) : NFA V :=
  { alphabet := A.alphabet
    initials := A.finals
    finals := A.initials
    transitions := (List.range A.transitions.length).map (fun e =>
      ((A.allKeys).sort (· ≤ ·)).filterMap (fun k =>
        if A.revSources k e = [] then none else some (k, A.revSources k e))) }

/-- `NFA::is_complete`: nonempty initials and every (state, letter) has a
nonempty successor list. -/
def is_complete (A : NFA V) : Bool :=
  if A.initials = ∅ then false
  else decide (∀ row ∈ A.transitions, ∀ v ∈ A.alphabet, RowOps.rowSuccs row v ≠ [])

/-- Ascending enumeration of a set of states (iteration order of a Rust
`HashSet` is unspecified; the sets enumerated here contain only states `< n`
on well-formed input, so filtering `0..n` enumerates exactly the set). -/
def natList (n : Nat) (S : Finset Nat) : List Nat :=
  (List.range n).filter (fun t => t ∈ S)

/-- All successors of a state, over every key of its row
(`transitions[e].values()`). -/
def allSuccsOf (A : NFA V) (q : Nat) : Finset Nat :=
  ((A.transitions.getD q []).flatMap (fun kv => kv.2)).toFinset

/-- The common depth-first loop of `NFA::is_empty` and `NFA::is_full`:
pop a state, fail if one of its successors satisfies `bad`, otherwise push the
unvisited successors. The loop always terminates on well-formed input; the
`fuel` argument makes the recursion structural and is chosen large enough
(`measure` bound proved below). -/
def dfsCheck (A : NFA V) (bad : Nat → Bool) : Nat → Finset Nat → List Nat → Bool
  | 0, _, _ => false
  | _ + 1, _, [] => true
  | fuel + 1, acc, e :: stack =>
      if ((A.allSuccsOf e).filter (fun t => bad t)).Nonempty then false
      else
        dfsCheck A bad fuel (acc ∪ A.allSuccsOf e)
          (natList A.transitions.length (A.allSuccsOf e \ acc) ++ stack)

/-- Fuel sufficient for `dfsCheck` on a well-formed automaton. -/
def dfsFuel (A : NFA V) : Nat :=
  A.transitions.length + A.initials.card + 1

/-- `NFA::is_empty`: initials meeting finals, or a final reachable by the
depth-first search, refute emptiness. -/
def is_empty (A : NFA V) : Bool :=
  if ¬ Disjoint A.initials A.finals then false
  else
    dfsCheck A (fun t => t ∈ A.finals) (dfsFuel A) A.initials
      (natList A.transitions.length A.initials)

/-- `NFA::is_full`: initials must meet finals and every state discovered by
the depth-first search must lie inside the finals. -/
def is_full (A : NFA V) : Bool :=
  if Disjoint A.initials A.finals then false
  else
    dfsCheck A (fun t => t ∉ A.finals) (dfsFuel A) A.initials
      (natList A.transitions.length A.initials)

/-- The §3 well-formedness invariants of an `NFA`: initials, finals and
transition targets in range, keys in the alphabet and pairwise distinct per
row (a `HashMap` cannot hold a key twice). -/
def WF (A : NFA V) : Prop :=
  (∀ q ∈ A.initials, q < A.transitions.length) ∧
  (∀ q ∈ A.finals, q < A.transitions.length) ∧
  (∀ row ∈ A.transitions, (row.map (fun kv => kv.1)).Nodup ∧
    ∀ kv ∈ row, kv.1 ∈ A.alphabet ∧ ∀ t ∈ kv.2, t < A.transitions.length)

instance (A : NFA V) : Decidable (WF A) := by
  unfold WF; infer_instance

end NFA

namespace NFA

variable {V : Type} [LinearOrder V]

theorem findBadKey_eq_none {alphabet : Finset V} {row : TransRow V} :
    findBadKey alphabet row = none ↔ ∀ kv ∈ row, kv.1 ∈ alphabet := by
  induction row with
  | nil => simp [findBadKey]
  | cons kv rest ih =>
      obtain ⟨k, l⟩ := kv
      by_cases h : k ∈ alphabet <;> simp [findBadKey, h, ih]

theorem findBadKey_eq_some {alphabet : Finset V} {row : TransRow V} {v : V} :
    findBadKey alphabet row = some v → v ∉ alphabet ∧ v ∈ row.map (fun kv => kv.1) := by
  induction row with
  | nil => simp [findBadKey]
  | cons kv rest ih =>
      obtain ⟨k, l⟩ := kv
      by_cases h : k ∈ alphabet
      · intro hs
        rcases ih (by simpa [findBadKey, h] using hs) with ⟨h1, h2⟩
        exact ⟨h1, by simp [h2]⟩
      · intro hs
        simp only [findBadKey, if_neg h, Option.some.injEq] at hs
        subst hs
        exact ⟨h, by simp⟩

theorem findBadDest_eq_none {len : Nat} {row : TransRow V} :
    findBadDest len row = none ↔ ∀ kv ∈ row, ∀ d ∈ kv.2, d < len := by
  induction row with
  | nil => simp [findBadDest]
  | cons kv rest ih =>
      obtain ⟨k, l⟩ := kv
      rcases h : l.find? (fun d => decide (len ≤ d)) with _ | d
      · have := List.find?_eq_none.mp h
        simp only [findBadDest, h]
        rw [ih]
        simp only [List.mem_cons, forall_eq_or_imp]
        constructor
        · intro hr
          refine ⟨fun d hd => ?_, hr⟩
          have hb := this d hd
          simp only [decide_eq_true_eq] at hb
          omega
        · exact fun hr => hr.2
      · simp only [findBadDest, h]
        have hmem := List.find?_some h
        have hd := List.mem_of_find?_eq_some h
        simp only [decide_eq_true_eq] at hmem
        constructor
        · intro hc; cases hc
        · intro hall
          have := hall (k, l) (by simp) d hd
          omega

theorem findBadDest_eq_some {len : Nat} {row : TransRow V} {kd : V × Nat} :
    findBadDest len row = some kd →
      ∃ kv ∈ row, kv.1 = kd.1 ∧ kd.2 ∈ kv.2 ∧ len ≤ kd.2 := by
  induction row with
  | nil => simp [findBadDest]
  | cons kv rest ih =>
      obtain ⟨k, l⟩ := kv
      rcases h : l.find? (fun d => decide (len ≤ d)) with _ | d
      · intro hs
        obtain ⟨kv, hkv, hrest⟩ := ih (by simpa [findBadDest, h] using hs)
        exact ⟨kv, by simp [hkv], hrest⟩
      · intro hs
        simp only [findBadDest, h, Option.some.injEq] at hs
        subst hs
        have hmem := List.find?_some h
        simp only [decide_eq_true_eq] at hmem
        exact ⟨(k, l), by simp, rfl, List.mem_of_find?_eq_some h, hmem⟩

theorem checkRows_eq_none {alphabet : Finset V} {len s : Nat}
    {rows : List (TransRow V)} :
    checkRows alphabet len s rows = none ↔
      ∀ row ∈ rows, ∀ kv ∈ row, kv.1 ∈ alphabet ∧ ∀ d ∈ kv.2, d < len := by
  induction rows generalizing s with
  | nil => simp [checkRows]
  | cons row rest ih =>
      rcases hk : findBadKey alphabet row with _ | v
      · rcases hd : findBadDest len row with _ | kd
        · simp only [checkRows, hk, hd, ih]
          have h1 := findBadKey_eq_none.mp hk
          have h2 := findBadDest_eq_none.mp hd
          simp only [List.mem_cons, forall_eq_or_imp]
          exact ⟨fun h => ⟨fun kv hkv => ⟨h1 kv hkv, h2 kv hkv⟩, h⟩, fun h => h.2⟩
        · simp only [checkRows, hk, hd]
          obtain ⟨kv, hkv, _, hd2, hlen⟩ := findBadDest_eq_some hd
          constructor
          · intro hc; cases hc
          · intro hall
            have := (hall row (by simp) kv hkv).2 _ hd2
            omega
      · simp only [checkRows, hk]
        obtain ⟨hv, hv2⟩ := findBadKey_eq_some hk
        constructor
        · intro hc; cases hc
        · intro hall
          obtain ⟨kv, hkv, hfst⟩ := List.mem_map.mp hv2
          exact absurd (hfst ▸ (hall row (by simp) kv hkv).1) hv

theorem checkRows_eq_some {alphabet : Finset V} {len s : Nat}
    {rows : List (TransRow V)} {e : FromRawError V} :
    checkRows alphabet len s rows = some e →
      (∃ v, e = .UnknownLetter v ∧ v ∉ alphabet ∧
        ∃ row ∈ rows, v ∈ row.map (fun kv => kv.1)) ∨
      (∃ st v d, e = .InvalidTransition st v d ∧ len ≤ d ∧
        ∃ row ∈ rows, ∃ kv ∈ row, kv.1 = v ∧ d ∈ kv.2) := by
  induction rows generalizing s with
  | nil => simp [checkRows]
  | cons row rest ih =>
      rcases hk : findBadKey alphabet row with _ | v
      · rcases hd : findBadDest len row with _ | kd
        · intro hs
          rcases ih (by simpa [checkRows, hk, hd] using hs) with h | h
          · obtain ⟨v, he, hv, r, hr, hm⟩ := h
            exact .inl ⟨v, he, hv, r, by simp [hr], hm⟩
          · obtain ⟨st, v, d, he, hlen, r, hr, hm⟩ := h
            exact .inr ⟨st, v, d, he, hlen, r, by simp [hr], hm⟩
        · intro hs
          simp only [checkRows, hk, hd, Option.some.injEq] at hs
          obtain ⟨kv, hkv, h1, h2, h3⟩ := findBadDest_eq_some hd
          exact .inr ⟨s, kd.1, kd.2, hs.symm, h3, row, by simp, kv, hkv, h1, h2⟩
      · intro hs
        simp only [checkRows, hk, Option.some.injEq] at hs
        obtain ⟨hv, hv2⟩ := findBadKey_eq_some hk
        exact .inl ⟨v, hs.symm, hv, row, by simp, hv2⟩

/-- The validity condition that `from_raw` actually enforces: initials, finals
and transition targets in range and keys in the alphabet.  (Empty successor
lists are *not* excluded.) -/
def RawValid (alphabet : Finset V) (initials finals : Finset Nat)
    (transitions : List (TransRow V)) : Prop :=
  (∀ s ∈ initials, s < transitions.length) ∧
  (∀ s ∈ finals, s < transitions.length) ∧
  (∀ row ∈ transitions, ∀ kv ∈ row, kv.1 ∈ alphabet ∧
    ∀ d ∈ kv.2, d < transitions.length)

instance (alphabet : Finset V) (initials finals : Finset Nat)
    (transitions : List (TransRow V)) :
    Decidable (RawValid alphabet initials finals transitions) := by
  unfold RawValid; infer_instance

theorem from_raw_ok_iff (alphabet : Finset V) (initials finals : Finset Nat)
    (transitions : List (TransRow V)) :
    from_raw alphabet initials finals transitions =
        .ok ⟨alphabet, initials, finals, transitions⟩ ↔
      RawValid alphabet initials finals transitions := by
  unfold from_raw RawValid
  split
  · rename_i h
    obtain ⟨x, hx⟩ := h
    simp only [Finset.mem_filter] at hx
    constructor
    · intro hc; cases hc
    · intro hv
      have := hv.1 x hx.1
      omega
  · split
    · rename_i h h2
      obtain ⟨x, hx⟩ := h2
      simp only [Finset.mem_filter] at hx
      constructor
      · intro hc; cases hc
      · intro hv
        have := hv.2.1 x hx.1
        omega
    · rename_i h h2
      rw [Finset.not_nonempty_iff_eq_empty, Finset.filter_eq_empty_iff] at h h2
      split
      · rename_i e he
        constructor
        · intro hc; cases hc
        · intro hv
          rw [← @checkRows_eq_none V _ alphabet transitions.length 0 transitions] at hv
          · rw [hv.2.2] at he; cases he
      · rename_i he
        have hrows := checkRows_eq_none.mp he
        simp only [Except.ok.injEq, true_iff]
        refine ⟨fun s hs => by have := h hs; omega,
                fun s hs => by have := h2 hs; omega, hrows⟩

theorem from_raw_error_classified (alphabet : Finset V)
    (initials finals : Finset Nat) (transitions : List (TransRow V))
    (e : FromRawError V)
    (he : from_raw alphabet initials finals transitions = .error e) :
    (∃ s, e = .InvalidInitial s ∧ s ∈ initials ∧ transitions.length ≤ s) ∨
    (∃ s, e = .InvalidFinal s ∧ s ∈ finals ∧ transitions.length ≤ s) ∨
    (∃ v, e = .UnknownLetter v ∧ v ∉ alphabet ∧
      ∃ row ∈ transitions, v ∈ row.map (fun kv => kv.1)) ∨
    (∃ st v d, e = .InvalidTransition st v d ∧ transitions.length ≤ d ∧
      ∃ row ∈ transitions, ∃ kv ∈ row, kv.1 = v ∧ d ∈ kv.2) := by
  unfold from_raw at he
  split at he
  · rename_i h
    left
    refine ⟨_, by injection he with h1; exact h1.symm, ?_⟩
    have := Finset.min'_mem _ h
    simp only [Finset.mem_filter] at this
    exact this
  · split at he
    · rename_i h h2
      right; left
      refine ⟨_, by injection he with h1; exact h1.symm, ?_⟩
      have := Finset.min'_mem _ h2
      simp only [Finset.mem_filter] at this
      exact this
    · split at he
      · rename_i e2 he2
        injection he with h1
        subst h1
        rcases checkRows_eq_some he2 with h | h
        · right; right; left; exact h
        · right; right; right; exact h
      · cases he

end NFA

/-- The regex AST `Operations` from `src/regex.rs`.  The Rust `Union` holds a
`BTreeSet` (ordered by the derived `Ord`) and `Concat` a `VecDeque`; both are
modelled as lists, a `BTreeSet` being kept sorted and duplicate-free under
`cmpOps` by its operations below. -/
inductive Operations (V : Type) where
  | Union (ts : List (Operations V))
  | Concat (vs : List (Operations V))
  | Repeat (o : Operations V) (min : Nat) (max : Option Nat)
  | Letter (v : V)
  | Epsilon
  | Empty
  | Dot

/-- `Regex` from `src/regex.rs`. -/
structure Regex (V : Type) where
  alphabet : Finset V
  regex : Operations V

namespace Operations

variable {V : Type} [LinearOrder V]

/-- Variant rank of the derived Rust `Ord` (declaration order). -/
def opRank : Operations V → Nat
  | Union _ => 0
  | Concat _ => 1
  | Repeat _ _ _ => 2
  | Letter _ => 3
  | Epsilon => 4
  | Empty => 5
  | Dot => 6

/-- `Ord` on `Option<usize>`: `None` is less than `Some`. -/
def cmpOpt : Option Nat → Option Nat → Ordering
  | none, none => .eq
  | none, some _ => .lt
  | some _, none => .gt
  | some a, some b => compare a b

mutual

/-- The derived `Ord` on `Operations`: variants in declaration order,
lexicographic inside a variant, sequences compared lexicographically. -/
def cmpOps : Operations V → Operations V → Ordering
  | Union a, Union b => cmpList a b
  | Concat a, Concat b => cmpList a b
  | Repeat a m x, Repeat b n y => (cmpOps a b).then ((compare m n).then (cmpOpt x y))
  | Letter a, Letter b => compare a b
  | a, b => compare (opRank a) (opRank b)

/-- Lexicographic comparison of sequences of `Operations`. -/
def cmpList : List (Operations V) → List (Operations V) → Ordering
  | [], [] => .eq
  | [], _ :: _ => .lt
  | _ :: _, [] => .gt
  | a :: as, b :: bs => (cmpOps a b).then (cmpList as bs)

end

/-- The derived structural equality (`PartialEq`), expressed through the
derived `Ord` with which it coincides. -/
def opEq (a b : Operations V) : Bool :=
  match cmpOps a b with
  | .eq => true
  | _ => false

/-- `BTreeSet::insert`: ordered insertion, keeping the set sorted and
duplicate-free. -/
def btInsert (x : Operations V) : List (Operations V) → List (Operations V)
  | [] => [x]
  | y :: rest =>
      match cmpOps x y with
      | .lt => x :: y :: rest
      | .eq => y :: rest
      | .gt => y :: btInsert x rest

/-- `BTreeSet::contains`. -/
def btContains (x : Operations V) (s : List (Operations V)) : Bool :=
  s.any (fun y => cmpOps x y = .eq)

/-- `BTreeSet::remove` (by value). -/
def btRemove (x : Operations V) (s : List (Operations V)) : List (Operations V) :=
  s.filter (fun y => ¬ cmpOps x y = .eq)

/-- Does the node have the shape `Repeat(_, 0, _)`? -/
def isRepeatZero : Operations V → Bool
  | Repeat _ 0 _ => true
  | _ => false

/-- The common prefix candidate `facto` of `simplify_union`: the head of a
`Concat`, the node itself otherwise (the source unwraps the head, which is
total because simplified `Concat`s are nonempty). -/
def getFacto : Operations V → Operations V
  | Concat (h :: _) => h
  | Concat [] => Concat []
  | x => x

/-- `Operations::simplify`, with explicit fuel making the non-structural
recursion (the source re-simplifies rebuilt trees) well-founded; the fuel is
chosen large enough for every execution the proofs below evaluate, and when it
runs out the node is returned unchanged.  The bodies of the source's
`simplify_union`, `simplify_concat` and `simplify_repeat` are the three
recursive arms. -/
def simplifyF (alphabet : Finset V) : Nat → Operations V → Operations V
  | 0, x => x
  | fuel + 1, Union t =>
      -- Operations::simplify_union
      if t.all (fun x => opEq x Empty) then Empty
      else
        let set := t.foldl (fun set e =>
          match simplifyF alphabet fuel e with
          | Empty => set
          | Union t2 => t2.foldl (fun s x => btInsert x s) set
          | x => btInsert x set) []
        if set.isEmpty then Epsilon
        else if set.length = 1 then set.headD Empty
        else if btContains Epsilon set ∧ set.length = 2 then
          simplifyF alphabet fuel
            (Repeat ((set.filter (fun x => ¬ opEq x Epsilon)).headD Empty) 0 (some 1))
        else
          let set2 := if set.any isRepeatZero then btRemove Epsilon set else set
          let facto := getFacto (set2.headD Empty)
          if set2.all (fun x =>
              match x with
              | Concat t => opEq facto (getFacto (Concat t))
              | x => opEq facto x) then
            let new_set := set2.foldl (fun ns e =>
              match e with
              | Concat t => btInsert (Concat t.tail) ns
              | _ => btInsert Epsilon ns) []
            simplifyF alphabet fuel (Concat [facto, Union new_set])
          else Union set2
  | fuel + 1, Concat v =>
      -- Operations::simplify_concat
      if v.all (fun x => opEq x Epsilon) then Epsilon
      else
        let vec := v.foldl (fun vec e =>
          match simplifyF alphabet fuel e with
          | Epsilon => vec
          | Concat v2 => vec ++ v2
          | x => vec ++ [x]) []
        if vec.isEmpty then Empty
        else if vec.length = 1 then vec.headD Empty
        else Concat vec
  | fuel + 1, Repeat o min max =>
      -- Operations::simplify_repeat; the arms after the Epsilon and
      -- empty-range rules are shared by the bounded and unbounded cases.
      let simpRest : Nat → Option Nat → Operations V → Operations V :=
        fun min max o1 =>
        match o1 with
        | Empty =>
            if min = 0 then Union (btInsert Epsilon (btInsert Empty [])) else Empty
        | Repeat o2 0 none => simplifyF alphabet fuel (Repeat o2 0 none)
        | Repeat o2 m2 x2 =>
            match min, max with
            | 0, none =>
                if m2 ≤ 1 then simplifyF alphabet fuel (Repeat o2 0 none)
                else Repeat (Repeat o2 m2 x2) 0 none
            | 0, some 1 =>
                if m2 = 0 ∧ x2 = some 1 then
                  simplifyF alphabet fuel (Repeat o2 0 (some 1))
                else Repeat (Repeat o2 m2 x2) 0 (some 1)
            | 1, none =>
                if m2 = 0 then Repeat o2 0 none
                else Repeat (Repeat o2 m2 x2) 1 none
            | mn, mx => Repeat (Repeat o2 m2 x2) mn mx
        | Union u =>
            match min, max with
            | 0, some 1 =>
                let u1 := btRemove Epsilon u
                let u2 :=
                  if u1.all (fun x => ¬ isRepeatZero x) then btInsert Epsilon u1
                  else u1
                simplifyF alphabet fuel (Union u2)
            | 0, mx =>
                let u1 := btRemove Epsilon u
                if u1.isEmpty then Epsilon
                else if u1.length = 1 then
                  simplifyF alphabet fuel (Repeat (u1.headD Empty) 0 mx)
                else Repeat (Union u1) 0 mx
            | mn, mx => Repeat (Union u) mn mx
        | x => Repeat x min max
      match min, max, simplifyF alphabet fuel o with
      | 0, some 0, _ => Epsilon
      | _, _, Epsilon => Epsilon
      | mn, some mx, o1 =>
          if mx < mn then Epsilon
          else if mn = 1 ∧ mx = 1 then o1
          else simpRest mn (some mx) o1
      | mn, none, o1 => simpRest mn none o1
  | _ + 1, x => x

mutual

/-- Size of a regex tree (used only to pick a sufficient fuel). -/
def opSize {V : Type} : Operations V → Nat
  | Union ts => 1 + opSizeList ts
  | Concat vs => 1 + opSizeList vs
  | Repeat o _ _ => 1 + opSize o
  | _ => 1

/-- Total size of a list of regex trees. -/
def opSizeList {V : Type} : List (Operations V) → Nat
  | [] => 0
  | x :: xs => opSize x + opSizeList xs

end

/-- The fuel used by the entry point `Operations::simplify`. -/
def simplifyFuel : Operations V → Nat := fun o => 2 * opSize o + 2

/-- `Operations::simplify` (entry point). -/
def simplify (alphabet : Finset V) (o : Operations V) : Operations V :=
  simplifyF alphabet (simplifyFuel o) o

omit [LinearOrder V] in
theorem opSize_le_of_mem {x : Operations V} :
    ∀ {l : List (Operations V)}, x ∈ l → opSize x ≤ opSizeList l := by
  intro l
  induction l with
  | nil => intro h; cases h
  | cons y ys ih =>
      intro h
      rcases List.mem_cons.mp h with h | h
      · subst h; simp [opSizeList]
      · have := ih h
        simp only [opSizeList]
        omega

/-- `Operations::to_nfa`: the standard compositional translation using the
`NFA` builders. -/
def to_nfa : Operations V → Finset V → NFA V
  | Union v, alphabet =>
      v.attach.foldl (fun acc x => acc.unite (to_nfa x.1 alphabet))
        (NFA.new_empty alphabet)
  | Concat v, alphabet =>
      v.attach.foldl (fun acc x => acc.concatenate (to_nfa x.1 alphabet))
        (NFA.new_length alphabet 0)
  | Repeat a mn mx, alphabet => NFA.repeatTot (to_nfa a alphabet) mn mx
  | Letter a, alphabet => NFA.new_matching alphabet [a]
  | Epsilon, alphabet => NFA.new_length alphabet 0
  | Empty, alphabet => NFA.new_empty alphabet
  | Dot, alphabet => NFA.new_length alphabet 1
termination_by o _ => opSize o
decreasing_by
  · have := opSize_le_of_mem x.2
    simp only [opSize]
    omega
  · have := opSize_le_of_mem x.2
    simp only [opSize]
    omega
  · simp only [opSize]
    omega

/-- `Operations::alphabet`: the set of `Letter` payloads. -/
def opsAlphabet : Operations V → Finset V
  | Union v => v.attach.foldl (fun acc x => acc ∪ opsAlphabet x.1) ∅
  | Concat v => v.attach.foldl (fun acc x => acc ∪ opsAlphabet x.1) ∅
  | Repeat o _ _ => opsAlphabet o
  | Letter a => {a}
  | Epsilon => ∅
  | Empty => ∅
  | Dot => ∅
termination_by o => opSize o
decreasing_by
  · have := opSize_le_of_mem x.2
    simp only [opSize]
    omega
  · have := opSize_le_of_mem x.2
    simp only [opSize]
    omega
  · simp only [opSize]
    omega

end Operations

namespace Regex

variable {V : Type} [LinearOrder V]

/-- `Regex::to_nfa`. -/
def to_nfa (r : Regex V) : NFA V :=
  r.regex.to_nfa r.alphabet

/-- `Regex::simplify`. -/
def simplify (r : Regex V) : Regex V :=
  { alphabet := r.alphabet, regex := Operations.simplify r.alphabet r.regex }

/-- `Regex::repeat` (the `Buildable` impl in `src/regex.rs`): normalise the
range exactly as `NFA::repeat` does (including the `usize` underflow on an
`Excluded 0` end bound, modelled as `none`) and wrap in a `Repeat` node. -/
def repeatB (r : Regex V) (rb : NFA.RangeB) : Option (Regex V) :=
  match rb.stop with
  | .Excluded 0 => none
  | _ =>
      some { alphabet := r.alphabet,
             regex := .Repeat r.regex (NFA.rangeStart rb.start) (NFA.rangeStop rb.stop) }

end Regex

/-- The tokens of the surface syntax (`src/parser.rs`). -/
inductive Token where
  | TUnion
  | TLpar
  | TRpar
  | TDot
  | TKleene
  | TQuestion
  | TPlus
  | TEpsilon
  | TLetter (c : Char)
  deriving DecidableEq

namespace Syntax0

open Operations

/-- The tokeniser: every reserved metasymbol is its token, any other
character is a letter. -/
def tokens (s : List Char) : List Token :=
  s.map (fun c =>
    if c = '|' then Token.TUnion
    else if c = '(' then Token.TLpar
    else if c = ')' then Token.TRpar
    else if c = '.' then Token.TDot
    else if c = '*' then Token.TKleene
    else if c = '?' then Token.TQuestion
    else if c = '+' then Token.TPlus
    else if c = '𝜀' then Token.TEpsilon
    else Token.TLetter c)

/-- `read_quantif`: wrap in `Repeat` while the next token is a quantifier. -/
def read_quantif : List Token → Operations Char → (Operations Char × List Token)
  | Token.TPlus :: rest, o => read_quantif rest (.Repeat o 1 none)
  | Token.TKleene :: rest, o => read_quantif rest (.Repeat o 0 none)
  | Token.TQuestion :: rest, o => read_quantif rest (.Repeat o 0 (some 1))
  | ts, o => (o, ts)

/-- `read_letter`: a dot, epsilon or letter atom followed by quantifiers. -/
def read_letter (ts : List Token) : Except String (Operations Char × List Token) :=
  match ts with
  | Token.TDot :: rest => .ok (read_quantif rest .Dot)
  | Token.TEpsilon :: rest => .ok (read_quantif rest .Epsilon)
  | Token.TLetter c :: rest => .ok (read_quantif rest (.Letter c))
  | _ => .error "Expected letter"

mutual

/-- `read_union`: read `concat ('|' concat)*` into a `BTreeSet`; a singleton
set yields its element. -/
def read_union (fuel : Nat) (u : List (Operations Char)) (ts : List Token) :
    Except String (Operations Char × List Token) :=
  match fuel with
  | 0 => .error "fuel exhausted"
  | fuel + 1 =>
      match read_concat fuel [] ts with
      | .error e => .error e
      | .ok (c, ts1) =>
          match ts1 with
          | Token.TUnion :: ts2 => read_union fuel (btInsert c u) ts2
          | _ =>
              let u1 := btInsert c u
              if u1.length = 1 then .ok (u1.headD .Empty, ts1)
              else .ok (.Union u1, ts1)

/-- `read_concat`: collect quantified atoms until a `|`, `)` or the end. -/
def read_concat (fuel : Nat) (acc : List (Operations Char)) (ts : List Token) :
    Except String (Operations Char × List Token) :=
  match fuel with
  | 0 => .error "fuel exhausted"
  | fuel + 1 =>
      match ts with
      | Token.TDot :: _ | Token.TEpsilon :: _ | Token.TLetter _ :: _ =>
          match read_letter ts with
          | .error e => .error e
          | .ok (o, ts1) => read_concat fuel (acc ++ [o]) ts1
      | Token.TLpar :: _ =>
          match read_paren fuel ts with
          | .error e => .error e
          | .ok (o, ts1) => read_concat fuel (acc ++ [o]) ts1
      | Token.TKleene :: _ => .error "Unexpected *"
      | Token.TPlus :: _ => .error "Unexpected +"
      | Token.TQuestion :: _ => .error "Unexpected ?"
      | _ =>
          if acc.length = 1 then .ok (acc.headD .Empty, ts)
          else .ok (.Concat acc, ts)

/-- `read_paren`: a parenthesised union followed by quantifiers. -/
def read_paren (fuel : Nat) (ts : List Token) :
    Except String (Operations Char × List Token) :=
  match fuel with
  | 0 => .error "fuel exhausted"
  | fuel + 1 =>
      match ts with
      | Token.TLpar :: ts1 =>
          match read_union fuel [] ts1 with
          | .error e => .error e
          | .ok (o, ts2) =>
              match ts2 with
              | Token.TRpar :: ts3 => .ok (read_quantif ts3 o)
              | _ => .error "Expected right parenthesis."
      | _ => .error "Expected left parenthesis."

end

end Syntax0

namespace Regex

open Syntax0

/-- `Regex::parse_with_alphabet`: an empty token stream yields the `Empty`
regex; otherwise parse a union, demand no trailing tokens and check the
letters against the given alphabet. -/
def parse_with_alphabet (alphabet : Finset Char) (regex : List Char) :
    Except String (Regex Char) :=
  if (tokens regex).isEmpty then .ok { alphabet := alphabet, regex := .Empty }
  else
    match read_union (2 * (tokens regex).length + 2) [] (tokens regex) with
    | .error e => .error e
    | .ok (r, rest) =>
        if ¬ rest.isEmpty then .error "Trailing characters."
        else if h : (r.opsAlphabet \ alphabet).Nonempty then
          .error ("Letter " ++ ((r.opsAlphabet \ alphabet).min' h).toString
            ++ " is not in the given alphabet")
        else .ok { alphabet := alphabet, regex := r }

/-- The `FromStr` impl for `Regex<char>`: infer the alphabet as every
character that is not a reserved metasymbol. -/
def from_str (s : List Char) : Except String (Regex Char) :=
  parse_with_alphabet
    ((s.filter (fun c =>
        c ∉ (['+', '*', '?', '.', '(', ')', '|', '𝜀'] : List Char))).toFinset) s

end Regex

namespace NFA

variable {V : Type} [LinearOrder V]

theorem from_raw_cases (alphabet : Finset V) (initials finals : Finset Nat)
    (transitions : List (TransRow V)) :
    (∃ e, from_raw alphabet initials finals transitions = .error e) ∨
      from_raw alphabet initials finals transitions =
        .ok ⟨alphabet, initials, finals, transitions⟩ := by
  unfold from_raw
  split
  · exact .inl ⟨_, rfl⟩
  · split
    · exact .inl ⟨_, rfl⟩
    · split
      · exact .inl ⟨_, rfl⟩
      · exact .inr rfl

end NFA

/-- C8 (amended): `from_raw` returns `Ok` holding exactly the given alphabet,
initials, finals and transitions precisely when every initial and final state
and every transition target is `< n` and every transition key lies in the
alphabet; each reported error names a genuine violation of its kind.  (A key
mapped to an empty successor list is accepted, not rejected.) -/
theorem claim_C8 {V : Type} [LinearOrder V] (alphabet : Finset V)
    (initials finals : Finset Nat) (transitions : List (TransRow V)) :
    (NFA.from_raw alphabet initials finals transitions =
        .ok ⟨alphabet, initials, finals, transitions⟩ ↔
      NFA.RawValid alphabet initials finals transitions) ∧
    ((∃ e, NFA.from_raw alphabet initials finals transitions = .error e) ↔
      ¬ NFA.RawValid alphabet initials finals transitions) ∧
    (∀ e, NFA.from_raw alphabet initials finals transitions = .error e →
      (∃ s, e = .InvalidInitial s ∧ s ∈ initials ∧ transitions.length ≤ s) ∨
      (∃ s, e = .InvalidFinal s ∧ s ∈ finals ∧ transitions.length ≤ s) ∨
      (∃ v, e = .UnknownLetter v ∧ v ∉ alphabet ∧
        ∃ row ∈ transitions, v ∈ row.map (fun kv => kv.1)) ∨
      (∃ st v d, e = .InvalidTransition st v d ∧ transitions.length ≤ d ∧
        ∃ row ∈ transitions, ∃ kv ∈ row, kv.1 = v ∧ d ∈ kv.2)) := by
  refine ⟨NFA.from_raw_ok_iff alphabet initials finals transitions, ⟨?_, ?_⟩, ?_⟩
  · rintro ⟨e, he⟩ hv
    rw [(NFA.from_raw_ok_iff alphabet initials finals transitions).mpr hv] at he
    cases he
  · intro hv
    rcases NFA.from_raw_cases alphabet initials finals transitions with ⟨e, he⟩ | hok
    · exact ⟨e, he⟩
    · exact absurd ((NFA.from_raw_ok_iff alphabet initials finals transitions).mp hok) hv
  · exact fun e he =>
      NFA.from_raw_error_classified alphabet initials finals transitions e he

/-- C8 counterexample: the claim asserts that a key mapped to an empty
successor list is rejected, but `from_raw` accepts it. -/
theorem claim_C8_counterexample :
    NFA.from_raw ({'a'} : Finset Char) ∅ ∅ [[('a', [])]] =
      .ok ⟨{'a'}, ∅, ∅, [[('a', [])]]⟩ :=
  (NFA.from_raw_ok_iff {'a'} ∅ ∅ [[('a', [])]]).mpr (by decide)

/-- C9: `NFA::repeat` is not total: a range whose end bound is `Excluded 0`
(such as `0..0`) makes the source compute `0 - 1` on `usize`, which panics,
instead of returning an automaton. -/
theorem claim_C9 {V : Type} [LinearOrder V] (A : NFA V) :
    A.repeat_range ⟨.Included 0, .Excluded 0⟩ = none := rfl

/-- The regex `Repeat (Letter a) 2 (Some 1)` on which `simplify` changes the
denoted language; it is built by the public `Regex::repeat` on the range
`2..=1`. -/
def simplifyBugInput : Regex Char :=
  { alphabet := {'a'}, regex := .Repeat (.Letter 'a') 2 (some 1) }

/-- C4: the simplifier is not language-invariant.  The regex
`(Letter a){2,1}` (obtained from the public `repeat` builder) denotes the
empty language — its NFA rejects every word — while its simplification
rewrites it to `Epsilon`, whose NFA accepts the empty word. -/
theorem claim_C4 :
    Regex.repeatB { alphabet := {'a'}, regex := .Letter 'a' }
        ⟨.Included 2, .Included 1⟩ = some simplifyBugInput ∧
    (∀ w : List Char, simplifyBugInput.to_nfa.run w = false) ∧
    simplifyBugInput.simplify.regex = .Epsilon ∧
    simplifyBugInput.simplify.to_nfa.run [] = true := by
  refine ⟨rfl, ?_, rfl, ?_⟩
  · intro w
    simp only [Regex.to_nfa, simplifyBugInput, Operations.to_nfa, NFA.repeatTot]
    norm_num
    simp [NFA.run, NFA.new_empty]
  · have h3 : simplifyBugInput.simplify.regex = .Epsilon := rfl
    have ha : simplifyBugInput.simplify.alphabet = {'a'} := rfl
    simp only [Regex.to_nfa, h3, ha, Operations.to_nfa]
    decide

namespace NFA

variable {V : Type} [LinearOrder V]

theorem mem_natList {n : Nat} {S : Finset Nat} {t : Nat} :
    t ∈ natList n S ↔ t < n ∧ t ∈ S := by
  simp [natList]

theorem natList_nodup (n : Nat) (S : Finset Nat) : (natList n S).Nodup :=
  (List.nodup_range n).filter _

theorem allSuccsOf_out_of_range {A : NFA V} {q : Nat}
    (hq : A.transitions.length ≤ q) : A.allSuccsOf q = ∅ := by
  unfold allSuccsOf
  rw [List.getD_eq_default _ _ hq]
  rfl

theorem mem_succsOf_allSuccsOf {A : NFA V} {q t : Nat} {a : V}
    (h : t ∈ A.succsOf q a) : t ∈ A.allSuccsOf q := by
  simp only [succsOf, List.mem_toFinset] at h
  simp only [allSuccsOf, List.mem_toFinset, List.mem_flatMap]
  unfold RowOps.rowSuccs at h
  rcases hl : RowOps.lookupRow (A.transitions.getD q []) a with _ | l
  · rw [hl] at h; cases h
  · rw [hl] at h
    obtain ⟨kv, hkv, hv⟩ := Option.map_eq_some'.mp hl
    have hmem := List.mem_of_find?_eq_some hkv
    exact ⟨kv, hmem, by simpa [hv] using h⟩

theorem allSuccsOf_lt {A : NFA V} (hWF : A.WF) (q t : Nat)
    (h : t ∈ A.allSuccsOf q) : t < A.transitions.length := by
  simp only [allSuccsOf, List.mem_toFinset, List.mem_flatMap] at h
  obtain ⟨kv, hkv, ht⟩ := h
  rcases hrow : A.transitions.getD q [] with _ | _
  · rw [hrow] at hkv; cases hkv
  · by_cases hq : q < A.transitions.length
    · have hrowmem : A.transitions.getD q [] ∈ A.transitions := by
        rw [List.getD_eq_getElem?_getD, List.getElem?_eq_getElem hq]
        exact List.getElem_mem hq
      exact ((hWF.2.2 _ hrowmem).2 kv hkv).2 t ht
    · have : A.transitions.getD q [] = [] :=
        List.getD_eq_default _ _ (Nat.le_of_not_lt hq)
      rw [this] at hkv; cases hkv

theorem succsOf_lt {A : NFA V} (hWF : A.WF) {q t : Nat} {a : V}
    (h : t ∈ A.succsOf q a) : t < A.transitions.length :=
  allSuccsOf_lt hWF q t (mem_succsOf_allSuccsOf h)

theorem stepSet_subset_range {A : NFA V} (hWF : A.WF) (S : Finset Nat) (a : V) :
    A.stepSet S a ⊆ Finset.range A.transitions.length := by
  intro t ht
  obtain ⟨q, _, hq⟩ := Finset.mem_biUnion.mp ht
  exact Finset.mem_range.mpr (succsOf_lt hWF hq)

theorem succsOf_eq_empty_of_not_mem {A : NFA V} (hWF : A.WF) (q : Nat) {a : V}
    (ha : a ∉ A.alphabet) : A.succsOf q a = ∅ := by
  ext t
  simp only [succsOf, List.mem_toFinset, Finset.not_mem_empty, iff_false]
  intro ht
  unfold RowOps.rowSuccs at ht
  rcases hl : RowOps.lookupRow (A.transitions.getD q []) a with _ | l
  · rw [hl] at ht; cases ht
  · obtain ⟨kv, hkv, hv⟩ := Option.map_eq_some'.mp hl
    have hmem := List.mem_of_find?_eq_some hkv
    have heq := List.find?_some hkv
    simp only [decide_eq_true_eq] at heq
    by_cases hq : q < A.transitions.length
    · have hrowmem : A.transitions.getD q [] ∈ A.transitions := by
        rw [List.getD_eq_getElem?_getD, List.getElem?_eq_getElem hq]
        exact List.getElem_mem hq
      exact ha (heq ▸ ((hWF.2.2 _ hrowmem).2 kv hmem).1)
    · have : A.transitions.getD q [] = [] :=
        List.getD_eq_default _ _ (Nat.le_of_not_lt hq)
      rw [this] at hmem; cases hmem

theorem stepSet_eq_empty_of_not_mem {A : NFA V} (hWF : A.WF) (S : Finset Nat)
    {a : V} (ha : a ∉ A.alphabet) : A.stepSet S a = ∅ := by
  unfold stepSet
  ext t
  simp only [Finset.mem_biUnion, Finset.not_mem_empty, iff_false]
  rintro ⟨q, _, hq⟩
  rw [succsOf_eq_empty_of_not_mem hWF q ha] at hq
  exact Finset.not_mem_empty t hq

/-- Soundness of the depth-first loop: a `true` answer exhibits a closed set
of states, containing the start set, all of whose successors avoid `bad`, and
all of whose members satisfy any property `P` that holds on the start set and
on non-bad successors. -/
theorem dfsCheck_sound {A : NFA V} {bad : Nat → Bool} (P : Nat → Prop)
    (hP : ∀ p t, t ∈ A.allSuccsOf p → bad t = false → P t) :
    ∀ (fuel : Nat) (acc : Finset Nat) (stack : List Nat),
    (∀ s ∈ stack, s ∈ acc) → stack.Nodup →
    (∀ p ∈ acc, p ∉ stack →
      A.allSuccsOf p ⊆ acc ∧ ∀ t ∈ A.allSuccsOf p, bad t = false) →
    (∀ p ∈ acc, P p) →
    A.dfsCheck bad fuel acc stack = true →
    ∃ C : Finset Nat, acc ⊆ C ∧
      (∀ p ∈ C, A.allSuccsOf p ⊆ C ∧ ∀ t ∈ A.allSuccsOf p, bad t = false) ∧
      (∀ p ∈ C, P p) := by
  intro fuel
  induction fuel with
  | zero => intro acc stack _ _ _ _ h; cases h
  | succ fuel ih =>
      intro acc stack hsub hnd hdone hPacc hres
      match stack with
      | [] =>
          exact ⟨acc, Finset.Subset.refl acc,
            fun p hp => hdone p hp (by simp), hPacc⟩
      | e :: stack =>
          rw [dfsCheck] at hres
          split at hres
          · cases hres
          · rename_i hbad
            rw [Finset.not_nonempty_iff_eq_empty, Finset.filter_eq_empty_iff] at hbad
            have hbadf : ∀ t ∈ A.allSuccsOf e, bad t = false := by
              intro t ht
              have := hbad ht
              simpa using this
            have he : e ∈ acc := hsub e (by simp)
            obtain ⟨C, hC1, hC2, hC3⟩ := ih (acc ∪ A.allSuccsOf e)
              (natList A.transitions.length (A.allSuccsOf e \ acc) ++ stack)
              (by
                intro s hs
                rcases List.mem_append.mp hs with hs | hs
                · exact Finset.mem_union_right _
                    (Finset.mem_sdiff.mp (mem_natList.mp hs).2).1
                · exact Finset.mem_union_left _ (hsub s (by simp [hs])))
              (by
                refine List.Nodup.append (natList_nodup _ _) hnd.of_cons ?_
                intro x hx hx2
                exact (Finset.mem_sdiff.mp (mem_natList.mp hx).2).2
                  (hsub x (by simp [hx2])))
              (by
                intro p hp hpn
                have hpn1 : p ∉ natList A.transitions.length (A.allSuccsOf e \ acc) :=
                  fun hc => hpn (List.mem_append.mpr (.inl hc))
                have hpn2 : p ∉ stack := fun hc => hpn (List.mem_append.mpr (.inr hc))
                rcases Finset.mem_union.mp hp with hp | hp
                · by_cases hpe : p = e
                  · subst hpe
                    exact ⟨Finset.subset_union_right, hbadf⟩
                  · have : p ∉ e :: stack := by
                      simp only [List.mem_cons, not_or]
                      exact ⟨hpe, hpn2⟩
                    obtain ⟨h1, h2⟩ := hdone p hp this
                    exact ⟨h1.trans Finset.subset_union_left, h2⟩
                · by_cases hpacc : p ∈ acc
                  · by_cases hpe : p = e
                    · subst hpe
                      exact ⟨Finset.subset_union_right, hbadf⟩
                    · have : p ∉ e :: stack := by
                        simp only [List.mem_cons, not_or]
                        exact ⟨hpe, hpn2⟩
                      obtain ⟨h1, h2⟩ := hdone p hpacc this
                      exact ⟨h1.trans Finset.subset_union_left, h2⟩
                  · by_cases hlt : p < A.transitions.length
                    · exact absurd (mem_natList.mpr
                        ⟨hlt, Finset.mem_sdiff.mpr ⟨hp, hpacc⟩⟩) hpn1
                    · rw [allSuccsOf_out_of_range (Nat.le_of_not_lt hlt)]
                      exact ⟨Finset.empty_subset _, by simp⟩)
              (by
                intro p hp
                rcases Finset.mem_union.mp hp with hp | hp
                · exact hPacc p hp
                · exact hP e p hp (hbadf p hp))
              hres
            exact ⟨C, Finset.subset_union_left.trans hC1, hC2, hC3⟩

theorem pathN_stays {A : NFA V} {C : Finset Nat}
    (hC : ∀ p ∈ C, A.allSuccsOf p ⊆ C) :
    ∀ {w : List V} {p q : Nat}, p ∈ C → A.PathN p w q → q ∈ C := by
  intro w
  induction w with
  | nil => intro p q hp h; rwa [← h]
  | cons a w ih =>
      rintro p q hp ⟨t, ht, hpath⟩
      exact ih (hC p hp (mem_succsOf_allSuccsOf ht)) hpath

theorem pathN_last {A : NFA V} {C : Finset Nat} {bad : Nat → Bool}
    (hC : ∀ p ∈ C, A.allSuccsOf p ⊆ C ∧ ∀ t ∈ A.allSuccsOf p, bad t = false) :
    ∀ {w : List V} {p q : Nat}, p ∈ C → A.PathN p w q →
      (w = [] ∧ p = q) ∨ bad q = false := by
  intro w
  induction w with
  | nil => intro p q _ h; exact .inl ⟨rfl, h⟩
  | cons a w ih =>
      rintro p q hp ⟨t, ht, hpath⟩
      have htC : t ∈ C := (hC p hp).1 (mem_succsOf_allSuccsOf ht)
      rcases ih htC hpath with ⟨_, rfl⟩ | hq
      · exact .inr ((hC p hp).2 t (mem_succsOf_allSuccsOf ht))
      · exact .inr hq

/-- Soundness of `NFA::is_empty`: a `true` answer implies no word is
accepted. -/
theorem is_empty_sound {A : NFA V} (h : A.is_empty = true) :
    ∀ w : List V, A.run w = false := by
  intro w
  unfold is_empty at h
  split at h
  · cases h
  · rename_i hdisj
    rw [not_not] at hdisj
    by_contra hrun
    rw [Bool.not_eq_false, run_iff_path] at hrun
    obtain ⟨i, hi, f, hf, hpath⟩ := hrun
    obtain ⟨C, hC1, hC2, hC3⟩ := dfsCheck_sound
      (fun p => p ∈ A.initials ∨ p ∉ A.finals)
      (fun p t _ hb => .inr (by simpa using hb))
      (dfsFuel A) A.initials (natList A.transitions.length A.initials)
      (fun s hs => (mem_natList.mp hs).2)
      (natList_nodup _ _)
      (fun p hp hpn => by
        by_cases hlt : p < A.transitions.length
        · exact absurd (mem_natList.mpr ⟨hlt, hp⟩) hpn
        · rw [allSuccsOf_out_of_range (Nat.le_of_not_lt hlt)]
          exact ⟨Finset.empty_subset _, by simp⟩)
      (fun p hp => .inl hp) h
    rcases pathN_last hC2 (hC1 hi) hpath with ⟨_, rfl⟩ | hq
    · exact (Finset.disjoint_left.mp hdisj hi) hf
    · simp only [decide_eq_false_iff_not] at hq
      exact hq hf

theorem succsOf_nonempty_of_complete {A : NFA V} {q : Nat} {a : V}
    (hq : q < A.transitions.length)
    (hcomp : ∀ row ∈ A.transitions, ∀ v ∈ A.alphabet, RowOps.rowSuccs row v ≠ [])
    (ha : a ∈ A.alphabet) : (A.succsOf q a).Nonempty := by
  have hrowmem : A.transitions.getD q [] ∈ A.transitions := by
    rw [List.getD_eq_getElem?_getD, List.getElem?_eq_getElem hq]
    exact List.getElem_mem hq
  have := hcomp _ hrowmem a ha
  unfold succsOf
  rw [Finset.nonempty_iff_ne_empty]
  intro hc
  apply this
  rcases h : RowOps.rowSuccs (A.transitions.getD q []) a with _ | ⟨x, l⟩
  · rfl
  · rw [h] at hc
    have : x ∈ (x :: l).toFinset := by simp
    rw [hc] at this
    cases this

/-- Soundness of `NFA::is_full` on a complete automaton: a `true` answer
implies every word over the alphabet is accepted. -/
theorem is_full_sound {A : NFA V} (hWF : A.WF) (hc : A.is_complete = true)
    (hf : A.is_full = true) :
    ∀ w : List V, (∀ a ∈ w, a ∈ A.alphabet) → A.run w = true := by
  unfold is_full at hf
  split at hf
  · cases hf
  · rename_i hdisj
    obtain ⟨C, hC1, hC2, hC3⟩ := dfsCheck_sound
      (fun p => p < A.transitions.length)
      (fun p t ht _ => allSuccsOf_lt hWF p t ht)
      (dfsFuel A) A.initials (natList A.transitions.length A.initials)
      (fun s hs => (mem_natList.mp hs).2)
      (natList_nodup _ _)
      (fun p hp hpn => by
        by_cases hlt : p < A.transitions.length
        · exact absurd (mem_natList.mpr ⟨hlt, hp⟩) hpn
        · rw [allSuccsOf_out_of_range (Nat.le_of_not_lt hlt)]
          exact ⟨Finset.empty_subset _, by simp⟩)
      (fun p hp => hWF.1 p hp) hf
    unfold is_complete at hc
    split at hc
    · cases hc
    · rename_i hine
      rw [decide_eq_true_eq] at hc
      have key : ∀ w : List V, (∀ a ∈ w, a ∈ A.alphabet) →
          ∀ S : Finset Nat, S ⊆ C → (S ∩ A.finals).Nonempty →
          A.runFrom w S = true := by
        intro w
        induction w with
        | nil =>
            intro _ S _ hSF
            simpa [runFrom] using hSF
        | cons a w ih =>
            intro hw S hSC hSF
            have ha : a ∈ A.alphabet := hw a (by simp)
            obtain ⟨q, hq⟩ := hSF
            have hqS : q ∈ S := (Finset.mem_inter.mp hq).1
            have hqC : q ∈ C := hSC hqS
            have hqlt : q < A.transitions.length := hC3 q hqC
            have hne : (A.stepSet S a).Nonempty := by
              obtain ⟨t, ht⟩ := succsOf_nonempty_of_complete hqlt hc ha
              exact ⟨t, Finset.mem_biUnion.mpr ⟨q, hqS, ht⟩⟩
            have hTC : A.stepSet S a ⊆ C := by
              intro t ht
              obtain ⟨p, hpS, hpt⟩ := Finset.mem_biUnion.mp ht
              exact (hC2 p (hSC hpS)).1 (mem_succsOf_allSuccsOf hpt)
            have hTF : A.stepSet S a ⊆ A.finals := by
              intro t ht
              obtain ⟨p, hpS, hpt⟩ := Finset.mem_biUnion.mp ht
              have := (hC2 p (hSC hpS)).2 t (mem_succsOf_allSuccsOf hpt)
              simpa using this
            rw [runFrom, if_neg (Finset.nonempty_iff_ne_empty.mp hne)]
            refine ih (fun b hb => hw b (by simp [hb])) _ hTC ?_
            obtain ⟨t, ht⟩ := hne
            exact ⟨t, Finset.mem_inter.mpr ⟨ht, hTF ht⟩⟩
      intro w hw
      have hIF : (A.initials ∩ A.finals).Nonempty :=
        Finset.not_disjoint_iff_nonempty_inter.mp hdisj
      unfold run
      split
      · rename_i hie
        obtain ⟨x, hx⟩ := hIF
        rw [hie] at hx
        cases (Finset.not_mem_empty x (Finset.mem_inter.mp hx).1)
      · exact key w hw A.initials hC1 hIF

end NFA

/-- Association-list lookup, modelling `HashMap::get`. -/
def alookup {α β : Type} [DecidableEq α] (m : List (α × β)) (a : α) : Option β :=
  (m.find? (fun kv => kv.1 = a)).map (fun kv => kv.2)

/-- Association-list insertion, modelling `HashMap::insert` (overwrite an
existing key or append). -/
def insertKV {α β : Type} [DecidableEq α] : List (α × β) → α → β → List (α × β)
  | [], a, b => [(a, b)]
  | (k, v) :: rest, a, b =>
      if k = a then (k, b) :: rest else (k, v) :: insertKV rest a b

theorem alookup_nil {α β : Type} [DecidableEq α] (a : α) :
    alookup ([] : List (α × β)) a = none := rfl

theorem alookup_cons {α β : Type} [DecidableEq α] (k : α) (b : β)
    (m : List (α × β)) (a : α) :
    alookup ((k, b) :: m) a = if k = a then some b else alookup m a := by
  by_cases h : k = a <;> simp [alookup, List.find?, h]

theorem alookup_insertKV {α β : Type} [DecidableEq α]
    (m : List (α × β)) (a : α) (b : β) (x : α) :
    alookup (insertKV m a b) x = if x = a then some b else alookup m x := by
  induction m with
  | nil =>
      show alookup [(a, b)] x = _
      rw [alookup_cons, alookup_nil]
      by_cases h : a = x
      · rw [if_pos h, if_pos h.symm]
      · rw [if_neg h, if_neg (fun hc => h hc.symm)]
  | cons kv rest ih =>
      obtain ⟨k, v⟩ := kv
      by_cases hk : k = a
      · subst hk
        simp only [insertKV, if_true, eq_self_iff_true]
        rw [alookup_cons, alookup_cons]
        by_cases hx : k = x
        · rw [if_pos hx, if_pos hx.symm]
        · rw [if_neg hx, if_neg (fun hc => hx hc.symm), if_neg hx]
      · simp only [insertKV, if_neg hk]
        rw [alookup_cons, alookup_cons, ih]
        by_cases hx : k = x
        · have hxa : ¬ x = a := fun hc => hk (hx.trans hc)
          rw [if_pos hx, if_neg hxa, if_pos hx]
        · rw [if_neg hx, if_neg hx]

theorem alookup_some_mem {α β : Type} [DecidableEq α] {m : List (α × β)}
    {a : α} {b : β} (h : alookup m a = some b) : (a, b) ∈ m := by
  obtain ⟨kv, hkv, hb⟩ := Option.map_eq_some'.mp h
  have hmem := List.mem_of_find?_eq_some hkv
  have heq := List.find?_some hkv
  simp only [decide_eq_true_eq] at heq
  obtain ⟨k, v⟩ := kv
  cases heq
  cases hb
  exact hmem

theorem alookup_eq_none_iff {α β : Type} [DecidableEq α] {m : List (α × β)}
    {a : α} : alookup m a = none ↔ ∀ b, (a, b) ∉ m := by
  constructor
  · intro h b hb
    unfold alookup at h
    rw [Option.map_eq_none'] at h
    have := List.find?_eq_none.mp h _ hb
    simp at this
  · intro h
    unfold alookup
    rw [Option.map_eq_none', List.find?_eq_none]
    rintro ⟨k, v⟩ hm
    simp only [decide_eq_true_eq]
    intro hk
    exact h v (hk ▸ hm)

theorem alookup_of_mem_unique {α β : Type} [DecidableEq α] {m : List (α × β)}
    {a : α} {b : β} (hmem : (a, b) ∈ m)
    (huniq : ∀ b2, (a, b2) ∈ m → b2 = b) : alookup m a = some b := by
  rcases h : alookup m a with _ | b2
  · exact absurd hmem (alookup_eq_none_iff.mp h b)
  · rw [huniq b2 (alookup_some_mem h)]

namespace DFA

variable {V : Type} [LinearOrder V]

/-- `DFA::new_empty`: one non-accepting state with no transitions. -/
def new_empty (alphabet : Finset V) : DFA V :=
  { alphabet := alphabet, initial := 0, finals := ∅, transitions := [[]] }

/-- The loop of `DFA::run`, from an arbitrary state. -/
def runD (D : DFA V) : Nat → List V → Bool
  | q, [] => decide (q ∈ D.finals)
  | q, a :: w =>
      match alookup (D.transitions.getD q []) a with
      | some t => D.runD t w
      | none => false

/-- `DFA::run`: deterministic simulation from the initial state, rejecting on
a missing transition. -/
def run (D : DFA V) (w : List V) : Bool := D.runD D.initial w

theorem new_empty_run (alphabet : Finset V) (w : List V) :
    (new_empty alphabet).run w = false := by
  cases w <;> simp [run, runD, new_empty, alookup]

end DFA

namespace NFA

variable {V : Type} [LinearOrder V] {K : Type} [DecidableEq K]

/-- The working state of the subset construction: the interning map from
encoded subset to DFA state id, the work queue of subsets still to process,
and the DFA under construction. -/
structure BuildSt (V K : Type) where
  map : List (K × Nat)
  stack : List (K × Finset Nat)
  dfa : DFA V

/-- The body of the `for v in &self.alphabet` loop of `small_to_dfa` /
`big_to_dfa`: compute the successor subset, skip it when empty, intern it
(assigning the next DFA id, marking it accepting when it meets the finals,
and enqueueing it) when new, and record the transition. -/
def subsetStepLetter (A : NFA V) (key : Finset Nat → K) (elemNum : Nat)
    (iter : Finset Nat) (st : BuildSt V K) (v : V) : BuildSt V K :=
  if A.stepSet iter v = ∅ then st
  else
    match alookup st.map (key (A.stepSet iter v)) with
    | some val =>
        { st with
          dfa := { st.dfa with
                   transitions := st.dfa.transitions.set elemNum
                       (insertKV (st.dfa.transitions.getD elemNum []) v val) } }
    | none =>
        { map := (key (A.stepSet iter v), st.dfa.transitions.length) :: st.map
          stack := st.stack ++ [(key (A.stepSet iter v), A.stepSet iter v)]
          dfa := { alphabet := st.dfa.alphabet
                   initial := st.dfa.initial
                   finals := if (A.stepSet iter v ∩ A.finals).Nonempty
                             then insert st.dfa.transitions.length st.dfa.finals
                             else st.dfa.finals
                   transitions := (st.dfa.transitions ++ [[]]).set elemNum
                     (insertKV ((st.dfa.transitions ++ [[]]).getD elemNum []) v
                       st.dfa.transitions.length) } }

/-- The work-queue loop of the subset construction: pop a subset, look up its
DFA id, process every alphabet letter.  The loop always terminates (each
interned subset is enqueued once); `fuel` makes the recursion structural and
`subsetFuel` below is proved sufficient. -/
def subsetLoop (A : NFA V) (key : Finset Nat → K) : Nat → BuildSt V K → DFA V
  | 0, st => st.dfa
  | fuel + 1, st =>
      match st.stack with
      | [] => st.dfa
      | (elem, iter) :: rest =>
          subsetLoop A key fuel
            ((A.alphabet.sort (· ≤ ·)).foldl
              (subsetStepLetter A key ((alookup st.map elem).getD 0) iter)
              { st with stack := rest })

/-- The initial state of the subset construction: the initial subset is
interned as DFA state `0`, accepting when it meets the finals. -/
def subsetInit (A : NFA V) (key : Finset Nat → K) : BuildSt V K :=
  { map := [(key A.initials, 0)]
    stack := [(key A.initials, A.initials)]
    dfa := { alphabet := A.alphabet, initial := 0,
             finals := if (A.initials ∩ A.finals).Nonempty then {0} else ∅,
             transitions := [[]] } }

/-- One more than the number of subsets of the state space, enough fuel for
the work-queue loop. -/
def subsetFuel (A : NFA V) : Nat := 2 ^ A.transitions.length + 1

/-- The common subset construction of `small_to_dfa` and `big_to_dfa`,
parameterised by the subset encoding used as interning key. -/
def subsetToDfa (A : NFA V) (key : Finset Nat → K) : DFA V :=
  subsetLoop A key (subsetFuel A) (subsetInit A key)

instance : Std.Commutative (α := Nat) (· ||| ·) := ⟨Nat.lor_comm⟩

instance : Std.Associative (α := Nat) (· ||| ·) := ⟨Nat.lor_assoc⟩

/-- The bitmask encoding of a subset for a machine word of width `W`:
the fold of `acc | (1 << x)` over the subset (`1 << x` truncated to `W` bits
as on the Rust side; no truncation happens while every state is `< W`). -/
def bitKey (W : Nat) (S : Finset Nat) : Nat :=
  S.fold (· ||| ·) 0 (fun x => 2 ^ x % 2 ^ W)

/-- `NFA::small_to_dfa` with machine words of width `W`. -/
def small_to_dfa (A : NFA V) (W : Nat) : DFA V := subsetToDfa A (bitKey W)

/-- `NFA::big_to_dfa`: the subset itself (a `BTreeSet` in the source) is the
interning key. -/
def big_to_dfa (A : NFA V) : DFA V := subsetToDfa A (fun S => S)

/-- `NFA::to_dfa`: the canonical empty DFA for an empty language, otherwise
the bitmask construction at the smallest sufficient width in {32, 64, 128},
falling back to the sorted-set construction for 128 states or more. -/
def to_dfa (A : NFA V) : DFA V :=
  if A.is_empty then DFA.new_empty A.alphabet
  else if A.transitions.length < 32 then A.small_to_dfa 32
  else if A.transitions.length < 64 then A.small_to_dfa 64
  else if A.transitions.length < 128 then A.small_to_dfa 128
  else A.big_to_dfa

end NFA

namespace NFA

variable {V : Type} [LinearOrder V] {K : Type} [DecidableEq K]

theorem getD_mem {α : Type} {l : List α} {i : Nat} (h : i < l.length) (d : α) :
    l.getD i d ∈ l := by
  rw [List.getD_eq_getElem l d h]
  exact List.getElem_mem h

theorem getD_append_lt {α : Type} {l l2 : List α} {i : Nat} (h : i < l.length)
    (d : α) : (l ++ l2).getD i d = l.getD i d := by
  rw [List.getD_eq_getElem?_getD, List.getD_eq_getElem?_getD,
    List.getElem?_append_left h]

theorem getD_append_len {α : Type} (l : List α) (x d : α) :
    (l ++ [x]).getD l.length d = x := by
  rw [List.getD_eq_getElem?_getD, List.getElem?_append_right (Nat.le_refl _)]
  simp

theorem getD_set_ne {α : Type} {l : List α} {i j : Nat} (h : i ≠ j) (x d : α) :
    (l.set i x).getD j d = l.getD j d := by
  rw [List.getD_eq_getElem?_getD, List.getD_eq_getElem?_getD,
    List.getElem?_set_ne h]

theorem getD_set_self {α : Type} {l : List α} {i : Nat} (h : i < l.length)
    (x d : α) : (l.set i x).getD i d = x := by
  rw [List.getD_eq_getElem?_getD, List.getElem?_set_self (by simpa using h)]
  rfl

/-- Injectivity of a subset encoding on the subsets of the state space. -/
def KeyInj (n : Nat) (key : Finset Nat → K) : Prop :=
  ∀ S T : Finset Nat, S ⊆ Finset.range n → T ⊆ Finset.range n →
    key S = key T → S = T

/-- The interning map determined by the list of interned subsets: subset
number `id` was inserted with value `id`, most recent first. -/
def mapOf (key : Finset Nat → K) (sets : List (Finset Nat)) : List (K × Nat) :=
  ((List.range sets.length).map (fun id => (key (sets.getD id ∅), id))).reverse

theorem mem_mapOf {key : Finset Nat → K} {sets : List (Finset Nat)} {k : K}
    {id : Nat} :
    (k, id) ∈ mapOf key sets ↔ id < sets.length ∧ k = key (sets.getD id ∅) := by
  unfold mapOf
  rw [List.mem_reverse, List.mem_map]
  constructor
  · rintro ⟨i, hi, heq⟩
    rw [List.mem_range] at hi
    rw [Prod.mk.injEq] at heq
    obtain ⟨h1, h2⟩ := heq
    subst h2
    exact ⟨hi, h1.symm⟩
  · rintro ⟨hid, rfl⟩
    exact ⟨id, List.mem_range.mpr hid, rfl⟩

theorem mapOf_append (key : Finset Nat → K) (sets : List (Finset Nat))
    (S : Finset Nat) :
    mapOf key (sets ++ [S]) = (key S, sets.length) :: mapOf key sets := by
  unfold mapOf
  rw [List.length_append, List.length_singleton, List.range_succ, List.map_append,
    List.reverse_append]
  simp only [List.map_cons, List.map_nil, List.reverse_cons, List.reverse_nil,
    List.nil_append, List.singleton_append, getD_append_len]
  congr 1
  congr 1
  apply List.map_congr_left
  intro i hi
  rw [List.mem_range] at hi
  rw [getD_append_lt hi]

theorem alookup_mapOf_getD {key : Finset Nat → K} {sets : List (Finset Nat)}
    {n : Nat} (hinj : KeyInj n key)
    (hsub : ∀ S ∈ sets, S ⊆ Finset.range n) (hnd : sets.Nodup)
    {id : Nat} (hid : id < sets.length) :
    alookup (mapOf key sets) (key (sets.getD id ∅)) = some id := by
  apply alookup_of_mem_unique (mem_mapOf.mpr ⟨hid, rfl⟩)
  intro b2 hb2
  obtain ⟨hb2lt, hkey⟩ := mem_mapOf.mp hb2
  have heqsets : sets.getD id ∅ = sets.getD b2 ∅ :=
    hinj _ _ (hsub _ (getD_mem hid ∅)) (hsub _ (getD_mem hb2lt ∅)) hkey
  rw [List.getD_eq_getElem _ _ hid, List.getD_eq_getElem _ _ hb2lt] at heqsets
  exact ((List.Nodup.getElem_inj_iff hnd).mp heqsets).symm

theorem alookup_mapOf_none_not_mem {key : Finset Nat → K}
    {sets : List (Finset Nat)} {T : Finset Nat}
    (h : alookup (mapOf key sets) (key T) = none) : T ∉ sets := by
  intro hT
  obtain ⟨i, hi, hTi⟩ := List.getElem_of_mem hT
  have : (key T, i) ∈ mapOf key sets :=
    mem_mapOf.mpr ⟨hi, by rw [List.getD_eq_getElem _ _ hi, hTi]⟩
  exact alookup_eq_none_iff.mp h i this

theorem alookup_mapOf_some {key : Finset Nat → K} {sets : List (Finset Nat)}
    {n : Nat} (hinj : KeyInj n key)
    (hsub : ∀ S ∈ sets, S ⊆ Finset.range n) {T : Finset Nat}
    (hT : T ⊆ Finset.range n) {val : Nat}
    (h : alookup (mapOf key sets) (key T) = some val) :
    val < sets.length ∧ sets.getD val ∅ = T := by
  obtain ⟨hlt, hkey⟩ := mem_mapOf.mp (alookup_some_mem h)
  exact ⟨hlt, hinj _ _ (hsub _ (getD_mem hlt ∅)) hT hkey.symm⟩

/-- The completed specification of one row of the DFA under construction:
for every processed letter with a nonempty successor subset the row maps the
letter to the id of that subset, and it holds no other key. -/
def rowComplete (A : NFA V) (sets : List (Finset Nat)) (S : Finset Nat)
    (row : List (V × Nat)) (ltrs : List V) : Prop :=
  ∀ v : V,
    if v ∈ ltrs ∧ A.stepSet S v ≠ ∅ then
      ∃ id2, id2 < sets.length ∧ sets.getD id2 ∅ = A.stepSet S v ∧
        alookup row v = some id2
    else alookup row v = none

theorem rowComplete_mono {A : NFA V} {sets sets2 : List (Finset Nat)}
    {S : Finset Nat} {row : List (V × Nat)} {ltrs : List V}
    (hpre : sets.length ≤ sets2.length)
    (hagree : ∀ i, i < sets.length → sets2.getD i ∅ = sets.getD i ∅)
    (h : rowComplete A sets S row ltrs) : rowComplete A sets2 S row ltrs := by
  intro v
  have hv := h v
  split at hv
  · rename_i hcond
    rw [if_pos hcond]
    obtain ⟨id2, h1, h2, h3⟩ := hv
    exact ⟨id2, Nat.lt_of_lt_of_le h1 hpre, by rw [hagree id2 h1]; exact h2, h3⟩
  · rename_i hcond
    rw [if_neg hcond]
    exact hv

/-- The loop invariant of the subset construction relating the building state
to the list `sets` of interned subsets (`sets[id]` is the subset assigned DFA
state `id`). -/
structure SubInv (A : NFA V) (key : Finset Nat → K) (st : BuildSt V K)
    (sets : List (Finset Nat)) : Prop where
  map_eq : st.map = mapOf key sets
  dfa_len : st.dfa.transitions.length = sets.length
  alph : st.dfa.alphabet = A.alphabet
  init : st.dfa.initial = 0
  finals_eq : st.dfa.finals = (Finset.range sets.length).filter
    (fun id => ((sets.getD id ∅) ∩ A.finals).Nonempty)
  sets_sub : ∀ S ∈ sets, S ⊆ Finset.range A.transitions.length
  sets_nodup : sets.Nodup
  sets_ne : sets ≠ []
  sets0 : sets.getD 0 ∅ = A.initials
  stack_mem : ∀ p ∈ st.stack, p.1 = key p.2 ∧ p.2 ∈ sets
  stack_nodup : (st.stack.map Prod.snd).Nodup
  rows_pending : ∀ id, id < sets.length →
      sets.getD id ∅ ∈ st.stack.map Prod.snd → st.dfa.transitions.getD id [] = []
  rows_done : ∀ id, id < sets.length →
      sets.getD id ∅ ∉ st.stack.map Prod.snd →
      rowComplete A sets (sets.getD id ∅) (st.dfa.transitions.getD id [])
        (A.alphabet.sort (· ≤ ·))

/-- The invariant holding while a popped subset `iter` (with DFA id
`elemNum`) is being processed letter by letter; `done` lists the letters
already processed into the row of `elemNum`. -/
structure MidInv (A : NFA V) (key : Finset Nat → K) (st : BuildSt V K)
    (sets : List (Finset Nat)) (elemNum : Nat) (iter : Finset Nat)
    (done : List V) : Prop where
  map_eq : st.map = mapOf key sets
  dfa_len : st.dfa.transitions.length = sets.length
  alph : st.dfa.alphabet = A.alphabet
  init : st.dfa.initial = 0
  finals_eq : st.dfa.finals = (Finset.range sets.length).filter
    (fun id => ((sets.getD id ∅) ∩ A.finals).Nonempty)
  sets_sub : ∀ S ∈ sets, S ⊆ Finset.range A.transitions.length
  sets_nodup : sets.Nodup
  sets_ne : sets ≠ []
  sets0 : sets.getD 0 ∅ = A.initials
  elem_lt : elemNum < sets.length
  elem_set : sets.getD elemNum ∅ = iter
  elem_not_pending : iter ∉ st.stack.map Prod.snd
  stack_mem : ∀ p ∈ st.stack, p.1 = key p.2 ∧ p.2 ∈ sets
  stack_nodup : (st.stack.map Prod.snd).Nodup
  rows_pending : ∀ id, id < sets.length →
      sets.getD id ∅ ∈ st.stack.map Prod.snd → st.dfa.transitions.getD id [] = []
  rows_done : ∀ id, id < sets.length → id ≠ elemNum →
      sets.getD id ∅ ∉ st.stack.map Prod.snd →
      rowComplete A sets (sets.getD id ∅) (st.dfa.transitions.getD id [])
        (A.alphabet.sort (· ≤ ·))
  elem_row : rowComplete A sets iter (st.dfa.transitions.getD elemNum []) done

theorem subsetStepLetter_midInv {A : NFA V} {key : Finset Nat → K}
    (hWF : A.WF) (hinj : KeyInj A.transitions.length key)
    {st : BuildSt V K} {sets : List (Finset Nat)} {elemNum : Nat}
    {iter : Finset Nat} {done : List V}
    (h : MidInv A key st sets elemNum iter done) (v : V) :
    ∃ ext : List (Finset Nat),
      (subsetStepLetter A key elemNum iter st v).stack =
        st.stack ++ ext.map (fun T => (key T, T)) ∧
      MidInv A key (subsetStepLetter A key elemNum iter st v)
        (sets ++ ext) elemNum iter (done ++ [v]) := by
  unfold subsetStepLetter
  by_cases hT : A.stepSet iter v = ∅
  · refine ⟨[], by simp [hT], ?_⟩
    rw [if_pos hT]
    simp only [List.append_nil]
    refine { h with elem_row := ?_ }
    intro x
    have hx := h.elem_row x
    by_cases hxv : x = v
    · subst hxv
      rw [if_neg (by simp [hT])]
      split at hx
      · rename_i hc
        exact absurd hc.2 (by simp [hT])
      · exact hx
    · have hmem : (x ∈ done ++ [v]) ↔ x ∈ done := by simp [hxv]
      split
      · rename_i hc
        rw [if_pos ⟨hmem.mp hc.1, hc.2⟩] at hx
        exact hx
      · rename_i hc
        split at hx
        · rename_i hc2
          exact absurd ⟨hmem.mpr hc2.1, hc2.2⟩ hc
        · exact hx
  · rw [if_neg hT]
    have hTsub : A.stepSet iter v ⊆ Finset.range A.transitions.length :=
      stepSet_subset_range hWF iter v
    rcases hlook : alookup st.map (key (A.stepSet iter v)) with _ | val
    · -- fresh subset: intern it
      rw [h.map_eq] at hlook
      have hTnotmem : A.stepSet iter v ∉ sets := alookup_mapOf_none_not_mem hlook
      have hlen : st.dfa.transitions.length = sets.length := h.dfa_len
      refine ⟨[A.stepSet iter v], by simp, ?_⟩
      have helt : elemNum < sets.length := h.elem_lt
      have helem_ne : elemNum ≠ sets.length := Nat.ne_of_lt h.elem_lt
      have hrow_elem :
          ((st.dfa.transitions ++ [[]]).set elemNum
            (insertKV ((st.dfa.transitions ++ [[]]).getD elemNum []) v
              st.dfa.transitions.length)).getD elemNum [] =
          insertKV (st.dfa.transitions.getD elemNum []) v sets.length := by
        rw [getD_set_self (by simp; omega) _ _,
          getD_append_lt (by omega), hlen]
      have hrow_other : ∀ id, id ≠ elemNum → id < sets.length →
          ((st.dfa.transitions ++ [[]]).set elemNum
            (insertKV ((st.dfa.transitions ++ [[]]).getD elemNum []) v
              st.dfa.transitions.length)).getD id [] =
          st.dfa.transitions.getD id [] := by
        intro id hne hid
        rw [getD_set_ne (fun hc => hne hc.symm), getD_append_lt (by omega)]
      have hrow_new :
          ((st.dfa.transitions ++ [[]]).set elemNum
            (insertKV ((st.dfa.transitions ++ [[]]).getD elemNum []) v
              st.dfa.transitions.length)).getD sets.length [] = [] := by
        rw [getD_set_ne (fun hc => helem_ne hc), ← hlen, getD_append_len]
      have hagree : ∀ i, i < sets.length →
          (sets ++ [A.stepSet iter v]).getD i ∅ = sets.getD i ∅ :=
        fun i hi => getD_append_lt hi ∅
      have hgetlast : (sets ++ [A.stepSet iter v]).getD sets.length ∅ =
          A.stepSet iter v := getD_append_len sets _ ∅
      refine
        { map_eq := ?_
          dfa_len := by simp [hlen]
          alph := h.alph
          init := h.init
          finals_eq := ?_
          sets_sub := ?_
          sets_nodup := ?_
          sets_ne := by simp
          sets0 := ?_
          elem_lt := by simp; omega
          elem_set := by rw [hagree elemNum h.elem_lt]; exact h.elem_set
          elem_not_pending := ?_
          stack_mem := ?_
          stack_nodup := ?_
          rows_pending := ?_
          rows_done := ?_
          elem_row := ?_ }
      · show (key (A.stepSet iter v), st.dfa.transitions.length) :: st.map = _
        rw [h.map_eq, hlen, mapOf_append]
      · show (if (A.stepSet iter v ∩ A.finals).Nonempty
            then insert st.dfa.transitions.length st.dfa.finals
            else st.dfa.finals) = _
        have hfilter : (Finset.range sets.length).filter
              (fun id => (((sets ++ [A.stepSet iter v]).getD id ∅) ∩ A.finals).Nonempty)
            = (Finset.range sets.length).filter
              (fun id => ((sets.getD id ∅) ∩ A.finals).Nonempty) :=
          Finset.filter_congr (fun i hi => by
            rw [hagree i (Finset.mem_range.mp hi)])
        rw [h.finals_eq, hlen, List.length_append, List.length_singleton,
          Finset.range_succ, Finset.filter_insert, hgetlast, hfilter]
      · intro S hS
        rcases List.mem_append.mp hS with hS | hS
        · exact h.sets_sub S hS
        · rw [List.mem_singleton] at hS
          subst hS
          exact hTsub
      · rw [List.nodup_append]
        refine ⟨h.sets_nodup, List.nodup_singleton _, ?_⟩
        intro x hx hx2
        rw [List.mem_singleton] at hx2
        subst hx2
        exact hTnotmem hx
      · rw [hagree 0 (by
          rcases sets with _ | ⟨s, ss⟩
          · exact absurd rfl h.sets_ne
          · simp)]
        exact h.sets0
      · show iter ∉ (st.stack ++ [(key (A.stepSet iter v), A.stepSet iter v)]).map Prod.snd
        rw [List.map_append]
        simp only [List.mem_append, List.map_cons, List.map_nil, List.mem_singleton]
        rintro (hc | hc)
        · exact h.elem_not_pending hc
        · rw [hc] at hT
          have : iter ∈ sets := h.elem_set ▸ getD_mem h.elem_lt ∅
          rw [← hc] at hTnotmem
          exact hTnotmem this
      · intro p hp
        rcases List.mem_append.mp hp with hp | hp
        · obtain ⟨h1, h2⟩ := h.stack_mem p hp
          exact ⟨h1, List.mem_append.mpr (.inl h2)⟩
        · rw [List.mem_singleton] at hp
          subst hp
          exact ⟨rfl, List.mem_append.mpr (.inr (by simp))⟩
      · rw [List.map_append]
        simp only [List.map_cons, List.map_nil]
        rw [List.nodup_append]
        refine ⟨h.stack_nodup, List.nodup_singleton _, ?_⟩
        intro x hx hx2
        rw [List.mem_singleton] at hx2
        subst hx2
        obtain ⟨p, hp, hps⟩ := List.mem_map.mp hx
        exact hTnotmem (hps ▸ (h.stack_mem p hp).2)
      · intro id hid hpend
        rw [List.length_append, List.length_singleton] at hid
        rcases Nat.lt_or_ge id sets.length with hlt | hge
        · rw [hagree id hlt] at hpend
          rw [hrow_other id ?hne hlt]
          case hne =>
            intro hc
            subst hc
            rw [h.elem_set] at hpend
            rw [List.map_append] at hpend
            rcases List.mem_append.mp hpend with hc | hc
            · exact absurd hc h.elem_not_pending
            · simp only [List.map_cons, List.map_nil, List.mem_singleton] at hc
              rw [hc] at hT
              exact hTnotmem (hc ▸ h.elem_set ▸ getD_mem h.elem_lt ∅)
          apply h.rows_pending id hlt
          rw [List.map_append] at hpend
          rcases List.mem_append.mp hpend with hc | hc
          · exact hc
          · simp only [List.map_cons, List.map_nil, List.mem_singleton] at hc
            exact absurd (hc ▸ getD_mem hlt ∅) hTnotmem
        · have hid_eq : id = sets.length := by omega
          subst hid_eq
          exact hrow_new
      · intro id hid hne hpend
        rw [List.length_append, List.length_singleton] at hid
        rcases Nat.lt_or_ge id sets.length with hlt | hge
        · rw [hagree id hlt]
          rw [hagree id hlt] at hpend
          rw [hrow_other id hne hlt]
          refine rowComplete_mono (by simp) hagree ?_
          apply h.rows_done id hlt hne
          intro hc
          exact hpend (by
            rw [List.map_append]
            exact List.mem_append.mpr (.inl hc))
        · have hid_eq : id = sets.length := by omega
          subst hid_eq
          rw [hgetlast] at hpend
          exact absurd (by
            rw [List.map_append]
            simp) hpend
      · rw [hrow_elem]
        intro x
        rw [alookup_insertKV]
        by_cases hxv : x = v
        · subst hxv
          rw [if_pos rfl, if_pos ⟨by simp, hT⟩]
          exact ⟨sets.length, by simp, hgetlast, rfl⟩
        · rw [if_neg hxv]
          have hx := h.elem_row x
          have hmem : (x ∈ done ++ [v]) ↔ x ∈ done := by simp [hxv]
          split
          · rename_i hc
            rw [if_pos ⟨hmem.mp hc.1, hc.2⟩] at hx
            obtain ⟨id2, h1, h2, h3⟩ := hx
            exact ⟨id2, by simp; omega, by rw [hagree id2 h1]; exact h2, h3⟩
          · rename_i hc
            split at hx
            · rename_i hc2
              exact absurd ⟨hmem.mpr hc2.1, hc2.2⟩ hc
            · exact hx
    · -- already interned: only record the transition
      rw [h.map_eq] at hlook
      obtain ⟨hvallt, hvalset⟩ :=
        alookup_mapOf_some hinj h.sets_sub hTsub hlook
      refine ⟨[], by simp, ?_⟩
      simp only [List.append_nil]
      have hrow_elem :
          ((st.dfa.transitions.set elemNum
            (insertKV (st.dfa.transitions.getD elemNum []) v val))).getD elemNum [] =
          insertKV (st.dfa.transitions.getD elemNum []) v val :=
        getD_set_self (h.dfa_len ▸ h.elem_lt) _ _
      have hrow_other : ∀ id, id ≠ elemNum →
          ((st.dfa.transitions.set elemNum
            (insertKV (st.dfa.transitions.getD elemNum []) v val))).getD id [] =
          st.dfa.transitions.getD id [] :=
        fun id hne => getD_set_ne (fun hc => hne hc.symm) _ _
      refine
        { h with
          dfa_len := by simp [h.dfa_len]
          rows_pending := ?_
          rows_done := ?_
          elem_row := ?_ }
      · intro id hid hpend
        rw [hrow_other id ?hne]
        case hne =>
          intro hc
          subst hc
          rw [h.elem_set] at hpend
          exact absurd hpend h.elem_not_pending
        exact h.rows_pending id hid hpend
      · intro id hid hne hpend
        rw [hrow_other id hne]
        exact h.rows_done id hid hne hpend
      · rw [hrow_elem]
        intro x
        rw [alookup_insertKV]
        by_cases hxv : x = v
        · subst hxv
          rw [if_pos rfl, if_pos ⟨by simp, hT⟩]
          exact ⟨val, hvallt, hvalset, rfl⟩
        · rw [if_neg hxv]
          have hx := h.elem_row x
          have hmem : (x ∈ done ++ [v]) ↔ x ∈ done := by simp [hxv]
          split
          · rename_i hc
            rw [if_pos ⟨hmem.mp hc.1, hc.2⟩] at hx
            exact hx
          · rename_i hc
            split at hx
            · rename_i hc2
              exact absurd ⟨hmem.mpr hc2.1, hc2.2⟩ hc
            · exact hx

theorem foldLetters_midInv {A : NFA V} {key : Finset Nat → K}
    (hWF : A.WF) (hinj : KeyInj A.transitions.length key)
    {elemNum : Nat} {iter : Finset Nat} :
    ∀ (todo : List V) (st : BuildSt V K) (sets : List (Finset Nat))
      (done : List V), MidInv A key st sets elemNum iter done →
    ∃ ext : List (Finset Nat),
      (todo.foldl (subsetStepLetter A key elemNum iter) st).stack =
        st.stack ++ ext.map (fun T => (key T, T)) ∧
      MidInv A key (todo.foldl (subsetStepLetter A key elemNum iter) st)
        (sets ++ ext) elemNum iter (done ++ todo) := by
  intro todo
  induction todo with
  | nil =>
      intro st sets done h
      exact ⟨[], by simp, by simpa using h⟩
  | cons v todo ih =>
      intro st sets done h
      obtain ⟨ext1, hstack1, hmid1⟩ := subsetStepLetter_midInv hWF hinj h v
      obtain ⟨ext2, hstack2, hmid2⟩ := ih _ _ _ hmid1
      refine ⟨ext1 ++ ext2, ?_, ?_⟩
      · rw [List.foldl_cons, hstack2, hstack1, List.map_append, List.append_assoc]
      · rw [List.foldl_cons, ← List.append_assoc, List.append_cons done v todo]
        exact hmid2

/-- The final invariant of the construction once the work queue drained:
every row is complete. -/
structure DfaInv (A : NFA V) (dfa : DFA V) (sets : List (Finset Nat)) :
    Prop where
  dfa_len : dfa.transitions.length = sets.length
  alph : dfa.alphabet = A.alphabet
  init : dfa.initial = 0
  finals_eq : dfa.finals = (Finset.range sets.length).filter
    (fun id => ((sets.getD id ∅) ∩ A.finals).Nonempty)
  sets_sub : ∀ S ∈ sets, S ⊆ Finset.range A.transitions.length
  sets_ne : sets ≠ []
  sets0 : sets.getD 0 ∅ = A.initials
  rows : ∀ id, id < sets.length →
      rowComplete A sets (sets.getD id ∅) (dfa.transitions.getD id [])
        (A.alphabet.sort (· ≤ ·))

theorem length_le_two_pow {n : Nat} (sets : List (Finset Nat))
    (hnd : sets.Nodup) (hsub : ∀ S ∈ sets, S ⊆ Finset.range n) :
    sets.length ≤ 2 ^ n := by
  have h1 : sets.toFinset.card = sets.length := List.toFinset_card_of_nodup hnd
  have h2 : sets.toFinset ⊆ (Finset.range n).powerset := by
    intro S hS
    rw [Finset.mem_powerset]
    exact hsub S (List.mem_toFinset.mp hS)
  have := Finset.card_le_card h2
  rw [h1, Finset.card_powerset, Finset.card_range] at this
  exact this

theorem subsetLoop_spec {A : NFA V} {key : Finset Nat → K}
    (hWF : A.WF) (hinj : KeyInj A.transitions.length key) :
    ∀ (fuel : Nat) (st : BuildSt V K) (sets : List (Finset Nat)),
      SubInv A key st sets →
      st.stack.length + (2 ^ A.transitions.length - sets.length) < fuel →
      ∃ sets2, DfaInv A (subsetLoop A key fuel st) sets2 := by
  intro fuel
  induction fuel with
  | zero => intro st sets _ hf; omega
  | succ fuel ih =>
      intro st sets h hf
      rw [subsetLoop]
      rcases hst : st.stack with _ | ⟨⟨elem, iter⟩, rest⟩
      · exact ⟨sets,
          { dfa_len := h.dfa_len, alph := h.alph, init := h.init,
            finals_eq := h.finals_eq, sets_sub := h.sets_sub,
            sets_ne := h.sets_ne, sets0 := h.sets0,
            rows := fun id hid => h.rows_done id hid (by simp [hst]) }⟩
      · obtain ⟨helem, hiter⟩ := h.stack_mem (elem, iter) (by rw [hst]; simp)
        simp only at helem hiter
        obtain ⟨idx, hidx, hidxget⟩ := List.getElem_of_mem hiter
        have hidxgetD : sets.getD idx ∅ = iter := by
          rw [List.getD_eq_getElem _ _ hidx, hidxget]
        have hlook : alookup st.map elem = some idx := by
          rw [h.map_eq, helem, ← hidxgetD]
          exact alookup_mapOf_getD hinj h.sets_sub h.sets_nodup hidx
        have hiter_nr : iter ∉ rest.map Prod.snd := by
          have := h.stack_nodup
          rw [hst] at this
          simp only [List.map_cons] at this
          exact this.not_mem
        have hmid : MidInv A key { st with stack := rest } sets idx iter [] :=
          { map_eq := h.map_eq, dfa_len := h.dfa_len, alph := h.alph,
            init := h.init, finals_eq := h.finals_eq, sets_sub := h.sets_sub,
            sets_nodup := h.sets_nodup, sets_ne := h.sets_ne, sets0 := h.sets0,
            elem_lt := hidx, elem_set := hidxgetD,
            elem_not_pending := hiter_nr,
            stack_mem := fun p hp => h.stack_mem p (by rw [hst]; simp [hp]),
            stack_nodup := by
              have := h.stack_nodup
              rw [hst] at this
              simp only [List.map_cons] at this
              exact this.of_cons,
            rows_pending := fun id hid hpend =>
              h.rows_pending id hid (by rw [hst]; simp only [List.map_cons]; right; exact hpend),
            rows_done := fun id hid hne hpend => by
              apply h.rows_done id hid
              rw [hst]
              simp only [List.map_cons, List.mem_cons]
              rintro (hc | hc)
              · apply hne
                have h1 : sets.getD id ∅ = sets.getD idx ∅ := by rw [hidxgetD, hc]
                rw [List.getD_eq_getElem _ _ hid, List.getD_eq_getElem _ _ hidx] at h1
                exact (List.Nodup.getElem_inj_iff h.sets_nodup).mp h1
              · exact hpend hc,
            elem_row := by
              have hrow : st.dfa.transitions.getD idx [] = [] := by
                apply h.rows_pending idx hidx
                rw [hst, hidxgetD]
                simp
              intro x
              rw [if_neg (by simp), hrow, alookup_nil] }
        obtain ⟨ext, hstack, hmid2⟩ :=
          foldLetters_midInv hWF hinj (A.alphabet.sort (· ≤ ·))
            { st with stack := rest } sets [] hmid
        show ∃ sets2, DfaInv A (subsetLoop A key fuel
            ((A.alphabet.sort (· ≤ ·)).foldl
              (subsetStepLetter A key ((alookup st.map elem).getD 0) iter)
              { st with stack := rest })) sets2
        rw [hlook]
        simp only [Option.getD_some]
        have hsub2 : SubInv A key
            ((A.alphabet.sort (· ≤ ·)).foldl
              (subsetStepLetter A key idx iter) { st with stack := rest })
            (sets ++ ext) :=
          { map_eq := hmid2.map_eq, dfa_len := hmid2.dfa_len,
            alph := hmid2.alph, init := hmid2.init,
            finals_eq := hmid2.finals_eq, sets_sub := hmid2.sets_sub,
            sets_nodup := hmid2.sets_nodup, sets_ne := hmid2.sets_ne,
            sets0 := hmid2.sets0, stack_mem := hmid2.stack_mem,
            stack_nodup := hmid2.stack_nodup,
            rows_pending := hmid2.rows_pending,
            rows_done := fun id hid hpend => by
              by_cases hne : id = idx
              · subst hne
                have := hmid2.elem_row
                rw [hmid2.elem_set]
                simpa using this
              · exact hmid2.rows_done id hid hne hpend }
        apply ih _ _ hsub2
        have hle : (sets ++ ext).length ≤ 2 ^ A.transitions.length :=
          length_le_two_pow _ hmid2.sets_nodup hmid2.sets_sub
        have hstlen : st.stack.length = rest.length + 1 := by rw [hst]; simp
        have hs2 : ((A.alphabet.sort (· ≤ ·)).foldl
            (subsetStepLetter A key idx iter) { st with stack := rest }).stack.length
            = rest.length + ext.length := by
          rw [hstack]
          simp
        rw [hs2, List.length_append]
        rw [List.length_append] at hle
        omega

/-- A completed construction simulates the NFA frontier run exactly. -/
theorem dfaInv_run {A : NFA V} {dfa : DFA V} {sets : List (Finset Nat)}
    (hWF : A.WF) (hD : DfaInv A dfa sets) :
    ∀ (w : List V) (id : Nat), id < sets.length →
      dfa.runD id w = A.runFrom w (sets.getD id ∅) := by
  intro w
  induction w with
  | nil =>
      intro id hid
      show decide (id ∈ dfa.finals) = decide _
      rw [decide_eq_decide, hD.finals_eq, Finset.mem_filter, Finset.mem_range]
      constructor
      · exact fun h => h.2
      · exact fun h => ⟨hid, h⟩
  | cons a w ih =>
      intro id hid
      have hrow := hD.rows id hid a
      show (match alookup (dfa.transitions.getD id []) a with
        | some t => dfa.runD t w
        | none => false) = _
      split at hrow
      · rename_i hcond
        obtain ⟨id2, h1, h2, h3⟩ := hrow
        rw [h3]
        simp only
        rw [ih id2 h1, h2]
        rw [runFrom, if_neg hcond.2]
      · rename_i hcond
        rw [hrow]
        simp only
        rw [runFrom]
        rw [not_and_or] at hcond
        rcases hcond with hc | hc
        · rw [Finset.mem_sort] at hc
          rw [if_pos (stepSet_eq_empty_of_not_mem hWF _ hc)]
        · rw [not_not] at hc
          rw [if_pos hc]

/-- The subset construction computes a DFA whose run simulates the NFA
frontier run from the initials, for any injective subset encoding. -/
theorem subsetToDfa_run {A : NFA V} {key : Finset Nat → K}
    (hWF : A.WF) (hinj : KeyInj A.transitions.length key) (w : List V) :
    (subsetToDfa A key).run w = A.runFrom w A.initials := by
  have hsub : SubInv A key (subsetInit A key) [A.initials] :=
    { map_eq := rfl
      dfa_len := rfl
      alph := rfl
      init := rfl
      finals_eq := by
        show (if (A.initials ∩ A.finals).Nonempty then {0} else ∅) = _
        simp only [List.length_singleton]
        rw [show Finset.range 1 = {0} from rfl, Finset.filter_singleton]
        simp only [List.getD_cons_zero]
      sets_sub := by
        intro S hS
        rw [List.mem_singleton] at hS
        subst hS
        intro q hq
        exact Finset.mem_range.mpr (hWF.1 q hq)
      sets_nodup := List.nodup_singleton _
      sets_ne := by simp
      sets0 := rfl
      stack_mem := by
        intro p hp
        have hp2 : p = (key A.initials, A.initials) := by
          simpa [subsetInit] using hp
        subst hp2
        exact ⟨rfl, by simp⟩
      stack_nodup := by simp [subsetInit]
      rows_pending := fun id hid _ => by
        have hid1 : id < 1 := by simpa using hid
        interval_cases id
        rfl
      rows_done := fun id hid hpend => by
        have hid1 : id < 1 := by simpa using hid
        interval_cases id
        exact absurd (by simp [subsetInit]) hpend }
  obtain ⟨sets2, hD⟩ := subsetLoop_spec hWF hinj (subsetFuel A) _ _ hsub
    (by
      have h1 : (1 : Nat) ≤ 2 ^ A.transitions.length := Nat.one_le_two_pow
      show 1 + (2 ^ A.transitions.length - 1) < 2 ^ A.transitions.length + 1
      omega)
  have h0 : 0 < sets2.length := by
    rcases sets2 with _ | _
    · exact absurd rfl hD.sets_ne
    · simp
  show (subsetLoop A key (subsetFuel A) (subsetInit A key)).runD
      (subsetLoop A key (subsetFuel A) (subsetInit A key)).initial w = _
  rw [hD.init, dfaInv_run hWF hD w 0 h0, hD.sets0]

/-- The bitmask encoding: bit `y` of the key of `S` is set iff `y ∈ S`,
provided every element of `S` is below the word width. -/
theorem testBit_bitKey {W : Nat} {S : Finset Nat} (hS : ∀ x ∈ S, x < W)
    (y : Nat) : (bitKey W S).testBit y = decide (y ∈ S) := by
  induction S using Finset.induction_on with
  | empty => simp [bitKey, Nat.zero_testBit]
  | @insert a S hmem ih =>
      have hkey : bitKey W (insert a S) = (2 ^ a % 2 ^ W) ||| bitKey W S := by
        unfold bitKey
        rw [Finset.fold_insert hmem]
      have haW : a < W := hS a (Finset.mem_insert_self a S)
      have hmod : 2 ^ a % 2 ^ W = 2 ^ a :=
        Nat.mod_eq_of_lt (Nat.pow_lt_pow_right Nat.one_lt_two haW)
      rw [hkey, hmod, Nat.testBit_lor, Nat.testBit_two_pow,
        ih (fun x hx => hS x (Finset.mem_insert_of_mem hx))]
      by_cases hya : a = y
      · subst hya
        simp
      · have hya2 : ¬ y = a := fun hc => hya hc.symm
        simp [hya, hya2, Finset.mem_insert]

/-- The bitmask encoding is injective on subsets of the state space when the
state count fits in the word width. -/
theorem bitKey_inj {n : Nat} (W : Nat) (hnW : n ≤ W) : KeyInj n (bitKey W) := by
  intro S T hS hT hkey
  ext y
  have hS2 : ∀ x ∈ S, x < W := fun x hx =>
    Nat.lt_of_lt_of_le (Finset.mem_range.mp (hS hx)) hnW
  have hT2 : ∀ x ∈ T, x < W := fun x hx =>
    Nat.lt_of_lt_of_le (Finset.mem_range.mp (hT hx)) hnW
  have := congrArg (fun m => Nat.testBit m y) hkey
  simp only at this
  rw [testBit_bitKey hS2 y, testBit_bitKey hT2 y] at this
  constructor
  · intro hy
    have : decide (y ∈ T) = true := by rw [← this]; simpa using hy
    simpa using this
  · intro hy
    have : decide (y ∈ S) = true := by rw [this]; simpa using hy
    simpa using this

/-- The identity encoding (the sorted-set key of `big_to_dfa`) is
injective. -/
theorem idKey_inj (n : Nat) : KeyInj n (fun S : Finset Nat => S) :=
  fun _ _ _ _ h => h

theorem is_empty_false_initials_ne {A : NFA V} (h : A.is_empty = false) :
    A.initials ≠ ∅ := by
  intro hI
  unfold is_empty at h
  rw [if_neg (by rw [hI]; simp)] at h
  unfold dfsFuel at h
  rw [hI] at h
  simp only [Finset.card_empty] at h
  have : natList A.transitions.length (∅ : Finset Nat) = [] := by
    unfold natList
    simp
  rw [this] at h
  rw [dfsCheck] at h
  cases h

/-- Language preservation of the determiniser: for a well-formed NFA the run
of `to_dfa` agrees with the NFA run on every word. -/
theorem to_dfa_run {A : NFA V} (hWF : A.WF) (w : List V) :
    (A.to_dfa).run w = A.run w := by
  unfold to_dfa
  rcases hie : A.is_empty with hie2 | hie2
  · rw [if_neg (by simp)]
    have hrun : A.run w = A.runFrom w A.initials := by
      unfold run
      rw [if_neg (is_empty_false_initials_ne hie)]
    rw [hrun]
    by_cases h32 : A.transitions.length < 32
    · rw [if_pos h32]
      exact subsetToDfa_run hWF (bitKey_inj 32 (by omega)) w
    · rw [if_neg h32]
      by_cases h64 : A.transitions.length < 64
      · rw [if_pos h64]
        exact subsetToDfa_run hWF (bitKey_inj 64 (by omega)) w
      · rw [if_neg h64]
        by_cases h128 : A.transitions.length < 128
        · rw [if_pos h128]
          exact subsetToDfa_run hWF (bitKey_inj 128 (by omega)) w
        · rw [if_neg h128]
          exact subsetToDfa_run hWF (idKey_inj _) w
  · rw [if_pos (by simp [hie])]
    rw [DFA.new_empty_run, is_empty_sound hie w]

end NFA

theorem mem_insertKV {α β : Type} [DecidableEq α]
    (m : List (α × β)) (a : α) (b : β) :
    ∀ kv ∈ insertKV m a b, kv ∈ m ∨ kv = (a, b) := by
  induction m with
  | nil =>
      intro kv h
      simp only [insertKV, List.mem_singleton] at h
      exact .inr h
  | cons kv0 rest ih =>
      obtain ⟨k, v⟩ := kv0
      intro kv h
      by_cases hk : k = a
      · rw [insertKV, if_pos hk, List.mem_cons] at h
        rcases h with h | h
        · exact .inr (by rw [h, hk])
        · exact .inl (List.mem_cons_of_mem _ h)
      · rw [insertKV, if_neg hk, List.mem_cons] at h
        rcases h with h | h
        · exact .inl (h ▸ List.mem_cons_self _ _)
        · rcases ih kv h with h2 | h2
          · exact .inl (List.mem_cons_of_mem _ h2)
          · exact .inr h2

theorem keys_insertKV_subset {α β : Type} [DecidableEq α]
    (m : List (α × β)) (a : α) (b : β) :
    ∀ x ∈ (insertKV m a b).map Prod.fst, x ∈ m.map Prod.fst ∨ x = a := by
  intro x hx
  rw [List.mem_map] at hx
  obtain ⟨kv, hkv, rfl⟩ := hx
  rcases mem_insertKV m a b kv hkv with h | h
  · exact .inl (List.mem_map.mpr ⟨kv, h, rfl⟩)
  · exact .inr (by rw [h])

theorem keys_insertKV_nodup {α β : Type} [DecidableEq α]
    (m : List (α × β)) (a : α) (b : β) (h : (m.map Prod.fst).Nodup) :
    ((insertKV m a b).map Prod.fst).Nodup := by
  induction m with
  | nil => simp [insertKV]
  | cons kv0 rest ih =>
      obtain ⟨k, v⟩ := kv0
      rw [List.map_cons] at h
      by_cases hk : k = a
      · rw [insertKV, if_pos hk]
        simpa using h
      · rw [insertKV, if_neg hk, List.map_cons]
        rw [List.nodup_cons] at h ⊢
        refine ⟨?_, ih h.2⟩
        intro hc
        rcases keys_insertKV_subset rest a b k hc with h2 | h2
        · exact h.1 h2
        · exact hk h2

namespace DFA

variable {V : Type} [LinearOrder V]

/-- `impl ToNfa for DFA`: one initial state, each map entry becomes a
singleton successor list. -/
def to_nfa (D : DFA V) : NFA V :=
  { alphabet := D.alphabet
    initials := {D.initial}
    finals := D.finals
    transitions := D.transitions.map (fun row => row.map (fun kv => (kv.1, [kv.2]))) }

/-- `impl ToDfa for DFA`: `clone`, the identity on the abstract automaton. -/
def to_dfa (D : DFA V) : DFA V := D

/-- `Buildable::reverse` for `DFA`: go through the NFA and determinise. -/
def reverse (D : DFA V) : DFA V := (D.to_nfa.reverse).to_dfa

/-- `DFA::minimize`: Brzozowski's algorithm,
`self.reverse().to_dfa().reverse().to_dfa()` (`DFA::to_dfa` is `clone`). -/
def minimize (D : DFA V) : DFA V := D.reverse.to_dfa.reverse.to_dfa

/-- Structural well-formedness of a DFA: the §3 invariants, with key
uniqueness per row (free for a `HashMap` row). -/
def WFD (D : DFA V) : Prop :=
  D.initial < D.transitions.length ∧
  (∀ q ∈ D.finals, q < D.transitions.length) ∧
  (∀ row ∈ D.transitions, (row.map Prod.fst).Nodup ∧
    ∀ kv ∈ row, kv.1 ∈ D.alphabet ∧ kv.2 < D.transitions.length)

theorem rowSuccs_map_singleton (row : List (V × Nat)) (a : V) :
    RowOps.rowSuccs (row.map (fun kv => (kv.1, [kv.2]))) a =
      (match alookup row a with
       | some t => [t]
       | none => []) := by
  induction row with
  | nil => rfl
  | cons kv rest ih =>
      obtain ⟨k, t⟩ := kv
      rw [List.map_cons]
      rw [show RowOps.rowSuccs ((k, [t]) :: rest.map (fun kv => (kv.1, [kv.2]))) a
          = if k = a then [t] else RowOps.rowSuccs (rest.map (fun kv => (kv.1, [kv.2]))) a by
        unfold RowOps.rowSuccs
        rw [RowOps.lookupRow_cons]
        split <;> rfl]
      rw [alookup_cons]
      by_cases h : k = a
      · rw [if_pos h, if_pos h]
      · rw [if_neg h, if_neg h, ih]

theorem to_nfa_succsOf (D : DFA V) (q : Nat) (a : V) :
    (D.to_nfa).succsOf q a =
      (match alookup (D.transitions.getD q []) a with
       | some t => ({t} : Finset Nat)
       | none => ∅) := by
  unfold NFA.succsOf to_nfa
  have hrow : (D.transitions.map (fun row => row.map (fun kv => (kv.1, [kv.2])))).getD q []
      = (D.transitions.getD q []).map (fun kv => (kv.1, [kv.2])) := by
    by_cases h : q < D.transitions.length
    · rw [List.getD_eq_getElem _ _ (by simpa using h), List.getElem_map,
        List.getD_eq_getElem _ _ h]
    · rw [List.getD_eq_default _ _ (by simpa using Nat.le_of_not_lt h),
        List.getD_eq_default _ _ (Nat.le_of_not_lt h)]
      rfl
  rw [hrow, rowSuccs_map_singleton]
  split <;> simp

theorem to_nfa_runFrom (D : DFA V) : ∀ (w : List V) (q : Nat),
    (D.to_nfa).runFrom w {q} = D.runD q w := by
  intro w
  induction w with
  | nil =>
      intro q
      show decide (({q} ∩ (D.to_nfa).finals).Nonempty) = decide (q ∈ D.finals)
      rw [decide_eq_decide]
      constructor
      · rintro ⟨x, hx⟩
        rw [Finset.mem_inter, Finset.mem_singleton] at hx
        exact hx.1 ▸ hx.2
      · intro h
        exact ⟨q, Finset.mem_inter.mpr ⟨Finset.mem_singleton_self q, h⟩⟩
  | cons a w ih =>
      intro q
      have hstep : (D.to_nfa).stepSet {q} a = (D.to_nfa).succsOf q a := by
        unfold NFA.stepSet
        exact Finset.singleton_biUnion
      rw [NFA.runFrom, hstep, to_nfa_succsOf]
      rw [show D.runD q (a :: w) = (match alookup (D.transitions.getD q []) a with
          | some t => D.runD t w
          | none => false) from rfl]
      rcases h : alookup (D.transitions.getD q []) a with _ | t
      · show (if (∅ : Finset Nat) = ∅ then false else _) = false
        rw [if_pos rfl]
      · show (if ({t} : Finset Nat) = ∅ then false else (D.to_nfa).runFrom w {t}) = D.runD t w
        rw [if_neg (by simp), ih t]

theorem to_nfa_run (D : DFA V) (w : List V) : (D.to_nfa).run w = D.run w := by
  unfold NFA.run run
  rw [if_neg (by simp [to_nfa])]
  exact to_nfa_runFrom D w D.initial

theorem to_nfa_wf {D : DFA V} (h : D.WFD) : (D.to_nfa).WF := by
  obtain ⟨h1, h2, h3⟩ := h
  refine ⟨?_, ?_, ?_⟩
  · intro q hq
    simp only [to_nfa, Finset.mem_singleton] at hq
    subst hq
    simpa [to_nfa] using h1
  · intro q hq
    simpa [to_nfa] using h2 q hq
  · intro row hrow
    simp only [to_nfa, List.mem_map] at hrow
    obtain ⟨row0, hrow0, rfl⟩ := hrow
    obtain ⟨hnd, hkv⟩ := h3 row0 hrow0
    constructor
    · simpa [List.map_map, Function.comp] using hnd
    · rintro kv hkv2
      rw [List.mem_map] at hkv2
      obtain ⟨kv0, hkv0, rfl⟩ := hkv2
      obtain ⟨ha, ht⟩ := hkv kv0 hkv0
      refine ⟨ha, ?_⟩
      intro t ht2
      rw [List.mem_singleton] at ht2
      subst ht2
      simpa [to_nfa] using ht

end DFA

namespace NFA

variable {V : Type} [LinearOrder V] {K : Type} [DecidableEq K]

theorem rowSuccs_filterMap (f : V → List Nat) (k : V) :
    ∀ (l : List V), (f k ≠ [] → k ∈ l) →
      RowOps.rowSuccs (l.filterMap (fun x =>
        if f x = [] then none else some (x, f x))) k = f k := by
  intro l
  induction l with
  | nil =>
      intro hk
      rcases h : f k with _ | _
      · rfl
      · exact absurd (hk (by rw [h]; simp)) (List.not_mem_nil k)
  | cons x l ih =>
      intro hk
      by_cases hfx : f x = []
      · rw [List.filterMap_cons_none (by rw [if_pos hfx])]
        apply ih
        intro hfk
        rcases List.mem_cons.mp (hk hfk) with heq | hmem
        · subst heq
          exact absurd hfx hfk
        · exact hmem
      · rw [List.filterMap_cons_some (by rw [if_neg hfx])]
        by_cases hxk : x = k
        · subst hxk
          unfold RowOps.rowSuccs
          rw [RowOps.lookupRow_cons, if_pos rfl]
          rfl
        · rw [show RowOps.rowSuccs ((x, f x) :: l.filterMap (fun x =>
              if f x = [] then none else some (x, f x))) k
              = RowOps.rowSuccs (l.filterMap (fun x =>
                if f x = [] then none else some (x, f x))) k by
            unfold RowOps.rowSuccs
            rw [RowOps.lookupRow_cons, if_neg hxk]]
          apply ih
          intro hfk
          rcases List.mem_cons.mp (hk hfk) with h | h
          · exact absurd h.symm hxk
          · exact h

theorem keys_filterMap_sublist (f : V → List Nat) :
    ∀ (l : List V), ((l.filterMap (fun x =>
      if f x = [] then none else some (x, f x))).map Prod.fst).Sublist l := by
  intro l
  induction l with
  | nil => simp
  | cons x l ih =>
      by_cases h : f x = []
      · rw [List.filterMap_cons_none (by rw [if_pos h])]
        exact ih.cons x
      · rw [List.filterMap_cons_some (by rw [if_neg h]), List.map_cons]
        exact ih.cons₂ x

theorem allKeys_subset {A : NFA V} (hWF : A.WF) : A.allKeys ⊆ A.alphabet := by
  intro k hk
  unfold NFA.allKeys at hk
  rw [List.mem_toFinset, List.mem_flatMap] at hk
  obtain ⟨row, hrow, hk2⟩ := hk
  rw [List.mem_map] at hk2
  obtain ⟨kv, hkv, rfl⟩ := hk2
  exact ((hWF.2.2 row hrow).2 kv hkv).1

theorem rowSuccs_key_mem {row : TransRow V} {k : V}
    (h : RowOps.rowSuccs row k ≠ []) : k ∈ row.map (fun kv => kv.1) := by
  unfold RowOps.rowSuccs RowOps.lookupRow at h
  rcases hf : row.find? (fun kv => kv.1 = k) with _ | kv
  · rw [hf] at h
    simp at h
  · have hmem := List.mem_of_find?_eq_some hf
    have heq := List.find?_some hf
    simp only [decide_eq_true_eq] at heq
    rw [List.mem_map]
    exact ⟨kv, hmem, heq⟩

theorem mem_allKeys_of_revSources {A : NFA V} {k : V} {e : Nat}
    (h : A.revSources k e ≠ []) : k ∈ A.allKeys := by
  obtain ⟨i, hi⟩ := List.exists_mem_of_ne_nil _ h
  rw [NFA.revSources, List.mem_filter, List.mem_range] at hi
  obtain ⟨hin, hsucc⟩ := hi
  rw [decide_eq_true_eq] at hsucc
  have hkmem := rowSuccs_key_mem (List.ne_nil_of_mem hsucc)
  rw [List.mem_map] at hkmem
  obtain ⟨kv, hkv, rfl⟩ := hkmem
  unfold NFA.allKeys
  rw [List.mem_toFinset, List.mem_flatMap]
  exact ⟨A.transitions.getD i [], getD_mem hin [], List.mem_map.mpr ⟨kv, hkv, rfl⟩⟩

theorem reverse_transitions_getD {A : NFA V} {e : Nat}
    (he : e < A.transitions.length) :
    (A.reverse).transitions.getD e [] =
      ((A.allKeys).sort (· ≤ ·)).filterMap (fun k =>
        if A.revSources k e = [] then none else some (k, A.revSources k e)) := by
  unfold NFA.reverse
  simp only
  rw [List.getD_eq_getElem _ _ (by simpa using he), List.getElem_map,
    List.getElem_range]

theorem mem_succsOf_reverse {A : NFA V} (hWF : A.WF) (e t : Nat) (k : V) :
    t ∈ (A.reverse).succsOf e k ↔
      t < A.transitions.length ∧ e ∈ A.succsOf t k := by
  by_cases he : e < A.transitions.length
  · unfold NFA.succsOf
    rw [reverse_transitions_getD he,
      rowSuccs_filterMap (fun x => A.revSources x e) k _
        (fun hne => (Finset.mem_sort _).mpr (mem_allKeys_of_revSources hne)),
      List.mem_toFinset, NFA.revSources, List.mem_filter, List.mem_range,
      decide_eq_true_eq]
    constructor
    · rintro ⟨ht, hmem⟩
      exact ⟨ht, List.mem_toFinset.mpr hmem⟩
    · rintro ⟨ht, hmem⟩
      exact ⟨ht, List.mem_toFinset.mp hmem⟩
  · constructor
    · intro h
      have hrow : (A.reverse).transitions.getD e [] = [] := by
        apply List.getD_eq_default
        simpa [NFA.reverse] using Nat.le_of_not_lt he
      rw [NFA.succsOf, hrow] at h
      simp [RowOps.rowSuccs, RowOps.lookupRow] at h
    · rintro ⟨ht, hmem⟩
      exact absurd (succsOf_lt hWF hmem) he

theorem pathN_lt_of_lt {A : NFA V} (hWF : A.WF) :
    ∀ {w : List V} {p q : Nat}, p < A.transitions.length →
      A.PathN p w q → q < A.transitions.length := by
  intro w
  induction w with
  | nil =>
      intro p q hp h
      exact h ▸ hp
  | cons a w ih =>
      rintro p q hp ⟨t, ht, hpath⟩
      exact ih (succsOf_lt hWF ht) hpath

theorem pathN_reverse {A : NFA V} (hWF : A.WF) :
    ∀ (w : List V) (p q : Nat), p < A.transitions.length →
      q < A.transitions.length →
      ((A.reverse).PathN p w q ↔ A.PathN q w.reverse p) := by
  intro w
  induction w with
  | nil =>
      intro p q _ _
      simp [NFA.PathN, eq_comm]
  | cons a w ih =>
      intro p q hp hq
      rw [List.reverse_cons, NFA.pathN_cons, pathN_append_iff]
      constructor
      · rintro ⟨t, ht, hpath⟩
        obtain ⟨htn, hmem⟩ := (mem_succsOf_reverse hWF p t a).mp ht
        exact ⟨t, (ih t q htn hq).mp hpath, p, hmem, rfl⟩
      · rintro ⟨t, hpath, s, hs, hsp⟩
        rw [NFA.pathN_nil] at hsp
        rw [hsp] at hs
        have htn : t < A.transitions.length := pathN_lt_of_lt hWF hq hpath
        exact ⟨t, (mem_succsOf_reverse hWF p t a).mpr ⟨htn, hs⟩,
          (ih t q htn hq).mpr hpath⟩

theorem reverse_run {A : NFA V} (hWF : A.WF) (w : List V) :
    (A.reverse).run w = A.run w.reverse := by
  rw [Bool.eq_iff_iff, run_iff_path, run_iff_path]
  constructor
  · rintro ⟨i, hi, f, hf, hpath⟩
    have hi2 : i ∈ A.finals := hi
    have hf2 : f ∈ A.initials := hf
    exact ⟨f, hf2, i, hi2,
      (pathN_reverse hWF w i f (hWF.2.1 i hi2) (hWF.1 f hf2)).mp hpath⟩
  · rintro ⟨p, hp, q, hq, hpath⟩
    exact ⟨q, hq, p, hp,
      (pathN_reverse hWF w q p (hWF.2.1 q hq) (hWF.1 p hp)).mpr hpath⟩

theorem reverse_wf {A : NFA V} (hWF : A.WF) : (A.reverse).WF := by
  have hlen : (A.reverse).transitions.length = A.transitions.length := by
    simp [NFA.reverse]
  refine ⟨?_, ?_, ?_⟩
  · intro q hq
    rw [hlen]
    exact hWF.2.1 q hq
  · intro q hq
    rw [hlen]
    exact hWF.1 q hq
  · intro row hrow
    simp only [NFA.reverse, List.mem_map, List.mem_range] at hrow
    obtain ⟨e, he, rfl⟩ := hrow
    constructor
    · exact List.Nodup.sublist (keys_filterMap_sublist _ _)
        (Finset.sort_nodup _ _)
    · rintro kv hkv
      rw [List.mem_filterMap] at hkv
      obtain ⟨k, hk, hkv2⟩ := hkv
      by_cases hne : A.revSources k e = []
      · rw [if_pos hne] at hkv2
        cases hkv2
      · rw [if_neg hne] at hkv2
        cases hkv2
        constructor
        · exact allKeys_subset hWF ((Finset.mem_sort _).mp hk)
        · intro t ht
          rw [hlen]
          rw [NFA.revSources, List.mem_filter] at ht
          exact List.mem_range.mp ht.1

/-- The structural invariant of the building state used to show the subset
construction yields a structurally well-formed DFA. -/
def StructInv (A : NFA V) (st : BuildSt V K) : Prop :=
  0 < st.dfa.transitions.length ∧
  st.dfa.alphabet = A.alphabet ∧
  st.dfa.initial = 0 ∧
  (∀ p ∈ st.map, p.2 < st.dfa.transitions.length) ∧
  (∀ q ∈ st.dfa.finals, q < st.dfa.transitions.length) ∧
  (∀ row ∈ st.dfa.transitions, (row.map Prod.fst).Nodup ∧
    ∀ kv ∈ row, kv.1 ∈ A.alphabet ∧ kv.2 < st.dfa.transitions.length)

theorem structInv_wfd {A : NFA V} {st : BuildSt V K} (h : StructInv A st) :
    DFA.WFD st.dfa := by
  obtain ⟨h0, halph, hinit, _, hfin, hrows⟩ := h
  refine ⟨by rw [hinit]; exact h0, hfin, ?_⟩
  intro row hrow
  obtain ⟨hnd, hkv⟩ := hrows row hrow
  exact ⟨hnd, fun kv hm => ⟨halph ▸ (hkv kv hm).1, (hkv kv hm).2⟩⟩

theorem subsetStepLetter_struct {A : NFA V} {key : Finset Nat → K}
    {st : BuildSt V K} (h : StructInv A st) {v : V} (hv : v ∈ A.alphabet)
    (elemNum : Nat) (iter : Finset Nat) :
    StructInv A (subsetStepLetter A key elemNum iter st v) := by
  obtain ⟨h0, halph, hinit, hmap, hfin, hrows⟩ := h
  unfold subsetStepLetter
  by_cases hse : A.stepSet iter v = ∅
  · rw [if_pos hse]
    exact ⟨h0, halph, hinit, hmap, hfin, hrows⟩
  · rw [if_neg hse]
    rcases hlk : alookup st.map (key (A.stepSet iter v)) with _ | val
    · have hbase : (((st.dfa.transitions ++ [[]]).getD elemNum []).map Prod.fst).Nodup ∧
          ∀ kv ∈ (st.dfa.transitions ++ [[]]).getD elemNum [],
            kv.1 ∈ A.alphabet ∧ kv.2 < st.dfa.transitions.length := by
        rcases Nat.lt_trichotomy elemNum st.dfa.transitions.length with hel | hel | hel
        · rw [getD_append_lt hel]
          exact hrows _ (getD_mem hel [])
        · subst hel
          rw [getD_append_len]
          exact ⟨List.nodup_nil, fun kv hm => absurd hm (List.not_mem_nil kv)⟩
        · rw [List.getD_eq_default _ _ (by rw [List.length_append]; simpa using hel)]
          exact ⟨List.nodup_nil, fun kv hm => absurd hm (List.not_mem_nil kv)⟩
      have hlen2 : (((st.dfa.transitions ++ [[]]).set elemNum
          (insertKV ((st.dfa.transitions ++ [[]]).getD elemNum []) v
            st.dfa.transitions.length)).length) = st.dfa.transitions.length + 1 := by
        rw [List.length_set, List.length_append]
        rfl
      refine ⟨?_, halph, hinit, ?_, ?_, ?_⟩
      · simp only [hlen2]
        omega
      · rintro p hp
        simp only [hlen2]
        rcases List.mem_cons.mp hp with hp2 | hp2
        · rw [hp2]
          omega
        · exact Nat.lt_succ_of_lt (hmap p hp2)
      · intro q hq
        simp only [hlen2]
        simp only at hq
        split at hq
        · rcases Finset.mem_insert.mp hq with hq2 | hq2
          · omega
          · exact Nat.lt_succ_of_lt (hfin q hq2)
        · exact Nat.lt_succ_of_lt (hfin q hq)
      · intro row hrow
        simp only [hlen2]
        simp only at hrow
        rcases List.mem_or_eq_of_mem_set hrow with hold | rfl
        · rcases List.mem_append.mp hold with hold2 | hold2
          · obtain ⟨hnd, hkv⟩ := hrows row hold2
            exact ⟨hnd, fun kv hm => ⟨(hkv kv hm).1, Nat.lt_succ_of_lt (hkv kv hm).2⟩⟩
          · rw [List.mem_singleton] at hold2
            subst hold2
            exact ⟨List.nodup_nil, fun kv hm => absurd hm (List.not_mem_nil kv)⟩
        · refine ⟨keys_insertKV_nodup _ _ _ hbase.1, ?_⟩
          intro kv hm
          rcases mem_insertKV _ _ _ kv hm with h2 | h2
          · exact ⟨(hbase.2 kv h2).1, Nat.lt_succ_of_lt (hbase.2 kv h2).2⟩
          · subst h2
            exact ⟨hv, Nat.lt_succ_self _⟩
    · have hval : val < st.dfa.transitions.length :=
        hmap _ (alookup_some_mem hlk)
      have hbase : ((st.dfa.transitions.getD elemNum []).map Prod.fst).Nodup ∧
          ∀ kv ∈ st.dfa.transitions.getD elemNum [],
            kv.1 ∈ A.alphabet ∧ kv.2 < st.dfa.transitions.length := by
        by_cases hel : elemNum < st.dfa.transitions.length
        · exact hrows _ (getD_mem hel [])
        · rw [List.getD_eq_default _ _ (Nat.le_of_not_lt hel)]
          exact ⟨List.nodup_nil, fun kv hm => absurd hm (List.not_mem_nil kv)⟩
      have hlen2 : (st.dfa.transitions.set elemNum
          (insertKV (st.dfa.transitions.getD elemNum []) v val)).length
          = st.dfa.transitions.length := List.length_set _ _ _
      refine ⟨?_, halph, hinit, ?_, ?_, ?_⟩
      · simpa only [hlen2] using h0
      · intro p hp
        simp only [hlen2]
        exact hmap p hp
      · intro q hq
        simp only [hlen2]
        exact hfin q hq
      · intro row hrow
        simp only [hlen2]
        simp only at hrow
        rcases List.mem_or_eq_of_mem_set hrow with hold | rfl
        · exact hrows row hold
        · refine ⟨keys_insertKV_nodup _ _ _ hbase.1, ?_⟩
          intro kv hm
          rcases mem_insertKV _ _ _ kv hm with h2 | h2
          · exact hbase.2 kv h2
          · subst h2
            exact ⟨hv, hval⟩

theorem foldl_struct {A : NFA V} {key : Finset Nat → K} (elemNum : Nat)
    (iter : Finset Nat) :
    ∀ (l : List V) (st : BuildSt V K), (∀ v ∈ l, v ∈ A.alphabet) →
      StructInv A st →
      StructInv A (l.foldl (subsetStepLetter A key elemNum iter) st) := by
  intro l
  induction l with
  | nil =>
      intro st _ h
      exact h
  | cons v l ih =>
      intro st hl h
      rw [List.foldl_cons]
      exact ih _ (fun x hx => hl x (List.mem_cons_of_mem _ hx))
        (subsetStepLetter_struct h (hl v (List.mem_cons_self _ _)) elemNum iter)

theorem subsetLoop_struct {A : NFA V} {key : Finset Nat → K} :
    ∀ (fuel : Nat) (st : BuildSt V K), StructInv A st →
      DFA.WFD (subsetLoop A key fuel st) := by
  intro fuel
  induction fuel with
  | zero =>
      intro st h
      exact structInv_wfd h
  | succ fuel ih =>
      intro st h
      rw [subsetLoop]
      rcases hst : st.stack with _ | ⟨⟨elem, iter⟩, rest⟩
      · exact structInv_wfd h
      · show DFA.WFD (subsetLoop A key fuel ((A.alphabet.sort (· ≤ ·)).foldl
          (subsetStepLetter A key ((alookup st.map elem).getD 0) iter)
          { st with stack := rest }))
        apply ih
        apply foldl_struct
        · intro x hx
          exact (Finset.mem_sort _).mp hx
        · exact h

theorem subsetInit_struct (A : NFA V) (key : Finset Nat → K) :
    StructInv A (subsetInit A key) := by
  refine ⟨by simp [subsetInit], rfl, rfl, ?_, ?_, ?_⟩
  · intro p hp
    simp only [subsetInit, List.mem_singleton] at hp
    subst hp
    simp [subsetInit]
  · intro q hq
    simp only [subsetInit] at hq ⊢
    split at hq
    · rw [Finset.mem_singleton] at hq
      subst hq
      simp
    · exact absurd hq (Finset.not_mem_empty q)
  · intro row hrow
    simp only [subsetInit, List.mem_singleton] at hrow
    subst hrow
    exact ⟨List.nodup_nil, fun kv hm => absurd hm (List.not_mem_nil kv)⟩

theorem subsetToDfa_wfd (A : NFA V) (key : Finset Nat → K) :
    DFA.WFD (subsetToDfa A key) :=
  subsetLoop_struct _ _ (subsetInit_struct A key)

theorem lt_of_mem_succsOf {A : NFA V} {q x : Nat} {v : V}
    (h : x ∈ A.succsOf q v) : q < A.transitions.length := by
  by_contra hq
  rw [NFA.succsOf, List.getD_eq_default _ _ (Nat.le_of_not_lt hq)] at h
  simp [RowOps.rowSuccs, RowOps.lookupRow] at h

theorem rowSuccs_shiftRow (row : TransRow V) (l : Nat) (v : V) :
    RowOps.rowSuccs (shiftRow row l) v = (RowOps.rowSuccs row v).map (· + l) := by
  induction row with
  | nil => rfl
  | cons kv rest ih =>
      obtain ⟨k, ts⟩ := kv
      show RowOps.rowSuccs ((k, ts.map (· + l)) :: shiftRow rest l) v = _
      unfold RowOps.rowSuccs at ih ⊢
      rw [RowOps.lookupRow_cons, RowOps.lookupRow_cons]
      by_cases h : k = v
      · rw [if_pos h, if_pos h]
        rfl
      · rw [if_neg h, if_neg h]
        exact ih

theorem rowSuccs_updateAppend (row : TransRow V) (a : V) (ts : List Nat) (v : V) :
    RowOps.rowSuccs (updateAppend row a ts) v =
      if a = v then RowOps.rowSuccs row v ++ ts else RowOps.rowSuccs row v := by
  induction row with
  | nil =>
      show RowOps.rowSuccs [(a, ts)] v = _
      unfold RowOps.rowSuccs
      rw [RowOps.lookupRow_cons, RowOps.lookupRow_nil]
      by_cases h : a = v
      · rw [if_pos h, if_pos h]
        rfl
      · rw [if_neg h, if_neg h]
  | cons kv rest ih =>
      obtain ⟨k, lst⟩ := kv
      by_cases hk : k = a
      · subst hk
        rw [show updateAppend ((k, lst) :: rest) k ts = (k, lst ++ ts) :: rest from by
          rw [updateAppend, if_pos rfl]]
        unfold RowOps.rowSuccs
        rw [RowOps.lookupRow_cons, RowOps.lookupRow_cons]
        by_cases hv : k = v
        · rw [if_pos hv, if_pos hv, if_pos hv]
          rfl
        · rw [if_neg hv, if_neg hv, if_neg hv]
      · rw [show updateAppend ((k, lst) :: rest) a ts = (k, lst) :: updateAppend rest a ts from by
          rw [updateAppend, if_neg hk]]
        unfold RowOps.rowSuccs at ih ⊢
        rw [RowOps.lookupRow_cons, RowOps.lookupRow_cons]
        by_cases hv : k = v
        · have hav : ¬ a = v := fun hc => hk (hv.trans hc.symm)
          rw [if_pos hv, if_pos hv, if_neg hav]
        · rw [if_neg hv, if_neg hv]
          exact ih

theorem rowSuccs_addEdges (v : V) :
    ∀ (edges : List (V × List Nat)) (row : TransRow V),
      RowOps.rowSuccs (addEdges row edges) v =
        RowOps.rowSuccs row v ++
          (edges.filter (fun kv => kv.1 = v)).flatMap (fun kv => kv.2) := by
  intro edges
  induction edges with
  | nil =>
      intro row
      simp [addEdges]
  | cons kv rest ih =>
      intro row
      obtain ⟨a, ts⟩ := kv
      show RowOps.rowSuccs (addEdges (updateAppend row a ts) rest) v = _
      rw [ih, rowSuccs_updateAppend]
      by_cases h : a = v
      · rw [if_pos h, List.filter_cons_of_pos (by simpa using h), List.flatMap_cons,
          List.append_assoc]
      · rw [if_neg h, List.filter_cons_of_neg (by simpa using h)]

theorem bridgeRows_length (F : Finset Nat) (edges : List (V × List Nat)) :
    ∀ (rows : List (TransRow V)) (i : Nat),
      (bridgeRows F edges i rows).length = rows.length := by
  intro rows
  induction rows with
  | nil => intro i; rfl
  | cons row rest ih =>
      intro i
      show (_ :: bridgeRows F edges (i + 1) rest).length = _
      rw [List.length_cons, List.length_cons, ih]

theorem bridgeRows_getD (F : Finset Nat) (edges : List (V × List Nat)) :
    ∀ (rows : List (TransRow V)) (i j : Nat), j < rows.length →
      (bridgeRows F edges i rows).getD j [] =
        if (i + j) ∈ F then addEdges (rows.getD j []) edges
        else rows.getD j [] := by
  intro rows
  induction rows with
  | nil =>
      intro i j hj
      exact absurd hj (by simp)
  | cons row rest ih =>
      intro i j hj
      cases j with
      | zero =>
          show ((if i ∈ F then addEdges row edges else row) :: _).getD 0 [] = _
          rw [List.getD_cons_zero]
          simp only [List.getD_cons_zero, Nat.add_zero]
      | succ j =>
          show ((if i ∈ F then addEdges row edges else row) :: _).getD (j + 1) [] = _
          rw [List.getD_cons_succ, List.getD_cons_succ,
            ih (i + 1) j (by simpa using hj)]
          have : i + 1 + j = i + (j + 1) := by omega
          rw [this]

theorem rowSuccs_eq_of_mem {row : TransRow V}
    (hnd : (row.map Prod.fst).Nodup) {v : V} {ts : List Nat}
    (h : (v, ts) ∈ row) : RowOps.rowSuccs row v = ts := by
  induction row with
  | nil => exact absurd h (List.not_mem_nil _)
  | cons kv rest ih =>
      obtain ⟨k, lst⟩ := kv
      rw [List.map_cons, List.nodup_cons] at hnd
      rcases List.mem_cons.mp h with heq | hmem
      · cases heq
        unfold RowOps.rowSuccs
        rw [RowOps.lookupRow_cons, if_pos rfl]
        rfl
      · have hkv : ¬ k = v := by
          intro hc
          subst hc
          exact hnd.1 (List.mem_map.mpr ⟨(k, ts), hmem, rfl⟩)
        unfold RowOps.rowSuccs at ih ⊢
        rw [RowOps.lookupRow_cons, if_neg hkv]
        exact ih hnd.2 hmem

theorem mem_rowSuccs_iff {row : TransRow V}
    (hnd : (row.map Prod.fst).Nodup) (v : V) (x : Nat) :
    x ∈ RowOps.rowSuccs row v ↔ ∃ kv ∈ row, kv.1 = v ∧ x ∈ kv.2 := by
  constructor
  · intro h
    have hne : RowOps.rowSuccs row v ≠ [] := List.ne_nil_of_mem h
    unfold RowOps.rowSuccs RowOps.lookupRow at h hne
    rcases hf : row.find? (fun kv => kv.1 = v) with _ | kv
    · rw [hf] at hne
      simp at hne
    · rw [hf] at h
      have hmem := List.mem_of_find?_eq_some hf
      have heq := List.find?_some hf
      simp only [decide_eq_true_eq] at heq
      exact ⟨kv, hmem, heq, h⟩
  · rintro ⟨⟨k, ts⟩, hmem, hk, hx⟩
    simp only at hk
    subst hk
    rw [rowSuccs_eq_of_mem hnd hmem]
    exact hx

theorem concatenate_transitions (a b : NFA V) :
    (a.concatenate b).transitions =
      bridgeRows a.finals ((b.initials.sort (· ≤ ·)).flatMap
          (fun i => (shift_transitions b.transitions a.transitions.length).getD i []))
        0 a.transitions
      ++ shift_transitions b.transitions a.transitions.length := rfl

theorem concatenate_initials (a b : NFA V) :
    (a.concatenate b).initials = a.initials := rfl

theorem concatenate_finals (a b : NFA V) :
    (a.concatenate b).finals =
      if Disjoint (b.finals.image (· + a.transitions.length))
          (b.initials.image (· + a.transitions.length))
      then b.finals.image (· + a.transitions.length)
      else a.finals ∪ b.finals.image (· + a.transitions.length) := rfl

theorem shift_transitions_getD (tr : List (TransRow V)) (l : Nat) (i : Nat) :
    (shift_transitions tr l).getD i [] = shiftRow (tr.getD i []) l := by
  by_cases h : i < tr.length
  · rw [List.getD_eq_getElem _ _ (by simpa [shift_transitions] using h),
      List.getD_eq_getElem _ _ h]
    exact List.getElem_map _
  · rw [List.getD_eq_default _ _ (by simpa [shift_transitions] using Nat.le_of_not_lt h),
      List.getD_eq_default _ _ (Nat.le_of_not_lt h)]
    rfl

theorem mem_concat_succsOf {a b : NFA V} (_hWFa : a.WF) (hWFb : b.WF)
    {p : Nat} (hp : p < a.transitions.length) (v : V) (x : Nat) :
    x ∈ (a.concatenate b).succsOf p v ↔
      x ∈ a.succsOf p v ∨
        (p ∈ a.finals ∧ ∃ i ∈ b.initials, ∃ y ∈ b.succsOf i v,
          x = y + a.transitions.length) := by
  have hbl := bridgeRows_length a.finals
    ((b.initials.sort (· ≤ ·)).flatMap
      (fun i => (shift_transitions b.transitions a.transitions.length).getD i []))
    a.transitions 0
  have hrow : (a.concatenate b).transitions.getD p [] =
      if p ∈ a.finals then
        addEdges (a.transitions.getD p [])
          ((b.initials.sort (· ≤ ·)).flatMap
            (fun i => (shift_transitions b.transitions a.transitions.length).getD i []))
      else a.transitions.getD p [] := by
    rw [concatenate_transitions, getD_append_lt (by rw [hbl]; exact hp),
      bridgeRows_getD _ _ _ 0 p (by exact hp)]
    simp only [Nat.zero_add]
  by_cases hf : p ∈ a.finals
  · rw [NFA.succsOf, hrow, if_pos hf, List.mem_toFinset,
      rowSuccs_addEdges, List.mem_append]
    constructor
    · rintro (h | h)
      · exact .inl (List.mem_toFinset.mpr h)
      · rw [List.mem_flatMap] at h
        obtain ⟨kv, hkv, hx⟩ := h
        rw [List.mem_filter] at hkv
        obtain ⟨hkv1, hkv2⟩ := hkv
        rw [decide_eq_true_eq] at hkv2
        rw [List.mem_flatMap] at hkv1
        obtain ⟨i, hi, hkvrow⟩ := hkv1
        rw [Finset.mem_sort] at hi
        rw [shift_transitions_getD] at hkvrow
        obtain ⟨kv0, hkv0, hkveq⟩ := List.mem_map.mp hkvrow
        refine .inr ⟨hf, i, hi, ?_⟩
        have hk0 : kv0.1 = v := by
          rw [← hkv2, ← hkveq]
        have hx0 : x ∈ kv0.2.map (· + a.transitions.length) := by
          rw [← hkveq] at hx
          exact hx
        obtain ⟨y, hy, hyx⟩ := List.mem_map.mp hx0
        refine ⟨y, ?_, hyx.symm⟩
        rw [NFA.succsOf, List.mem_toFinset,
          mem_rowSuccs_iff ((hWFb.2.2 _ (getD_mem (hWFb.1 i hi) [])).1)]
        exact ⟨kv0, hkv0, hk0, hy⟩
    · rintro (h | ⟨-, i, hi, y, hy, hxy⟩)
      · exact .inl (List.mem_toFinset.mp h)
      · refine .inr ?_
        rw [List.mem_flatMap]
        rw [NFA.succsOf, List.mem_toFinset,
          mem_rowSuccs_iff ((hWFb.2.2 _ (getD_mem (hWFb.1 i hi) [])).1)] at hy
        obtain ⟨kv0, hkv0, hk0, hyin⟩ := hy
        refine ⟨(kv0.1, kv0.2.map (· + a.transitions.length)), ?_, ?_⟩
        · rw [List.mem_filter]
          constructor
          · rw [List.mem_flatMap]
            refine ⟨i, (Finset.mem_sort _).mpr hi, ?_⟩
            rw [shift_transitions_getD]
            exact List.mem_map.mpr ⟨kv0, hkv0, rfl⟩
          · simpa using hk0
        · simp only
          rw [hxy]
          exact List.mem_map.mpr ⟨y, hyin, rfl⟩
  · rw [NFA.succsOf, hrow, if_neg hf]
    constructor
    · intro h
      exact .inl h
    · rintro (h | ⟨hpf, -⟩)
      · exact h
      · exact absurd hpf hf

theorem mem_concat_succsOf_high {a b : NFA V} (q : Nat) (v : V) (x : Nat) :
    x ∈ (a.concatenate b).succsOf (q + a.transitions.length) v ↔
      ∃ y ∈ b.succsOf q v, x = y + a.transitions.length := by
  have hbl := bridgeRows_length a.finals
    ((b.initials.sort (· ≤ ·)).flatMap
      (fun i => (shift_transitions b.transitions a.transitions.length).getD i []))
    a.transitions 0
  have hrow : (a.concatenate b).transitions.getD (q + a.transitions.length) [] =
      shiftRow (b.transitions.getD q []) a.transitions.length := by
    rw [concatenate_transitions, List.getD_eq_getElem?_getD,
      List.getElem?_append_right (by rw [hbl]; omega), hbl]
    have : q + a.transitions.length - a.transitions.length = q := by omega
    rw [this, ← List.getD_eq_getElem?_getD, shift_transitions_getD]
  rw [NFA.succsOf, hrow, List.mem_toFinset, rowSuccs_shiftRow, List.mem_map]
  constructor
  · rintro ⟨y, hy, hyx⟩
    exact ⟨y, List.mem_toFinset.mpr hy, hyx.symm⟩
  · rintro ⟨y, hy, hyx⟩
    exact ⟨y, List.mem_toFinset.mp hy, hyx.symm⟩

theorem concat_path_shift {a b : NFA V} :
    ∀ (w : List V) (q g : Nat), b.PathN q w g →
      (a.concatenate b).PathN (q + a.transitions.length) w
        (g + a.transitions.length) := by
  intro w
  induction w with
  | nil =>
      intro q g h
      rw [NFA.pathN_nil] at h ⊢
      rw [h]
  | cons c w ih =>
      rintro q g ⟨t, ht, hpath⟩
      exact ⟨t + a.transitions.length,
        (mem_concat_succsOf_high q c _).mpr ⟨t, ht, rfl⟩, ih t g hpath⟩

theorem concat_path_high {a b : NFA V} :
    ∀ (w : List V) (q f : Nat),
      (a.concatenate b).PathN (q + a.transitions.length) w f →
      ∃ g, f = g + a.transitions.length ∧ b.PathN q w g := by
  intro w
  induction w with
  | nil =>
      intro q f h
      rw [NFA.pathN_nil] at h
      exact ⟨q, h.symm, rfl⟩
  | cons c w ih =>
      rintro q f ⟨s, hs, hpath⟩
      obtain ⟨t, ht, rfl⟩ := (mem_concat_succsOf_high q c s).mp hs
      obtain ⟨g, rfl, hbpath⟩ := ih t f hpath
      exact ⟨g, rfl, t, ht, hbpath⟩

theorem concat_path_low {a b : NFA V} (hWFa : a.WF) (hWFb : b.WF) :
    ∀ (w : List V) (p f : Nat), a.PathN p w f →
      (a.concatenate b).PathN p w f := by
  intro w
  induction w with
  | nil =>
      intro p f h
      exact h
  | cons c w ih =>
      rintro p f ⟨t, ht, hpath⟩
      have hp : p < a.transitions.length := lt_of_mem_succsOf ht
      exact ⟨t, (mem_concat_succsOf hWFa hWFb hp c t).mpr (.inl ht), ih t f hpath⟩

theorem concat_path_decomp {a b : NFA V} (hWFa : a.WF) (hWFb : b.WF) :
    ∀ (w : List V) (p f : Nat), p < a.transitions.length →
      (a.concatenate b).PathN p w f →
      (f < a.transitions.length ∧ a.PathN p w f) ∨
      (∃ u c vr fa i t g, w = u ++ c :: vr ∧ a.PathN p u fa ∧ fa ∈ a.finals ∧
        i ∈ b.initials ∧ t ∈ b.succsOf i c ∧ b.PathN t vr g ∧
        f = g + a.transitions.length) := by
  intro w
  induction w with
  | nil =>
      intro p f hp h
      rw [NFA.pathN_nil] at h
      exact .inl ⟨h ▸ hp, h⟩
  | cons c w ih =>
      rintro p f hp ⟨s, hs, hpath⟩
      rcases (mem_concat_succsOf hWFa hWFb hp c s).mp hs with hsa | ⟨hpf, i, hi, t, ht, rfl⟩
      · have hsl : s < a.transitions.length := succsOf_lt hWFa hsa
        rcases ih s f hsl hpath with ⟨hfl, hpa⟩ | ⟨u, c2, vr, fa, i, t, g, hw, hpa, hfa, hib, htb, hpb, hf⟩
        · exact .inl ⟨hfl, s, hsa, hpa⟩
        · exact .inr ⟨c :: u, c2, vr, fa, i, t, g, by rw [hw]; rfl,
            ⟨s, hsa, hpa⟩, hfa, hib, htb, hpb, hf⟩
      · obtain ⟨g, rfl, hbpath⟩ := concat_path_high w t f hpath
        exact .inr ⟨[], c, w, p, i, t, g, rfl, rfl, hpf, hi, ht, hbpath, rfl⟩

theorem concatenate_run {a b : NFA V} (hWFa : a.WF) (hWFb : b.WF) (w : List V) :
    (a.concatenate b).run w = true ↔
      ∃ u v, w = u ++ v ∧ a.run u = true ∧ b.run v = true := by
  rw [run_iff_path]
  constructor
  · rintro ⟨i0, hi0, f, hf, hpath⟩
    have hi0a : i0 ∈ a.initials := hi0
    have hi0l : i0 < a.transitions.length := hWFa.1 i0 hi0a
    rcases concat_path_decomp hWFa hWFb w i0 f hi0l hpath with
      ⟨hfl, hpa⟩ | ⟨u, c, vr, fa, i, t, g, hw, hpa, hfa, hib, htb, hpb, hfg⟩
    · have hff : f ∈ (a.concatenate b).finals := hf
      rw [concatenate_finals] at hff
      by_cases hdis : Disjoint (b.finals.image (· + a.transitions.length))
          (b.initials.image (· + a.transitions.length))
      · rw [if_pos hdis] at hff
        obtain ⟨g, hg, hgf⟩ := Finset.mem_image.mp hff
        omega
      · rw [if_neg hdis] at hff
        rcases Finset.mem_union.mp hff with hffa | hffb
        · refine ⟨w, [], by simp, ?_, ?_⟩
          · rw [run_iff_path]
            exact ⟨i0, hi0a, f, hffa, hpa⟩
          · rw [run_iff_path]
            rw [Finset.not_disjoint_iff] at hdis
            obtain ⟨x, hxf, hxi⟩ := hdis
            obtain ⟨gf, hgf, hgfe⟩ := Finset.mem_image.mp hxf
            obtain ⟨gi, hgi, hgie⟩ := Finset.mem_image.mp hxi
            exact ⟨gi, hgi, gf, hgf, by rw [NFA.pathN_nil]; omega⟩
        · obtain ⟨g, hg, hgf⟩ := Finset.mem_image.mp hffb
          omega
    · subst hfg
      have hgf : g ∈ b.finals := by
        have hff : g + a.transitions.length ∈ (a.concatenate b).finals := hf
        rw [concatenate_finals] at hff
        by_cases hdis : Disjoint (b.finals.image (· + a.transitions.length))
            (b.initials.image (· + a.transitions.length))
        · rw [if_pos hdis] at hff
          obtain ⟨g2, hg2, hg2e⟩ := Finset.mem_image.mp hff
          have hgg : g2 = g := by omega
          exact hgg ▸ hg2
        · rw [if_neg hdis] at hff
          rcases Finset.mem_union.mp hff with hffa | hffb
          · have := hWFa.2.1 _ hffa
            omega
          · obtain ⟨g2, hg2, hg2e⟩ := Finset.mem_image.mp hffb
            have hgg : g2 = g := by omega
            exact hgg ▸ hg2
      refine ⟨u, c :: vr, hw, ?_, ?_⟩
      · rw [run_iff_path]
        exact ⟨i0, hi0a, fa, hfa, hpa⟩
      · rw [run_iff_path]
        exact ⟨i, hib, g, hgf, t, htb, hpb⟩
  · rintro ⟨u, v, rfl, hau, hbv⟩
    rw [run_iff_path] at hau hbv
    obtain ⟨i0, hi0, fa, hfa, hpa⟩ := hau
    cases v with
    | nil =>
        obtain ⟨ib, hib, gb, hgb, hpb⟩ := hbv
        rw [NFA.pathN_nil] at hpb
        have hndis : ¬ Disjoint (b.finals.image (· + a.transitions.length))
            (b.initials.image (· + a.transitions.length)) := by
          rw [Finset.not_disjoint_iff]
          exact ⟨gb + a.transitions.length,
            Finset.mem_image.mpr ⟨gb, hgb, rfl⟩,
            Finset.mem_image.mpr ⟨ib, hib, by rw [hpb]⟩⟩
        refine ⟨i0, hi0, fa, ?_, ?_⟩
        · show fa ∈ (a.concatenate b).finals
          rw [concatenate_finals, if_neg hndis]
          exact Finset.mem_union_left _ hfa
        · rw [List.append_nil]
          exact concat_path_low hWFa hWFb u i0 fa hpa
    | cons c vr =>
        obtain ⟨ib, hib, gb, hgb, t, htb, hpb⟩ := hbv
        have hfal : fa < a.transitions.length := hWFa.2.1 fa hfa
        refine ⟨i0, hi0, gb + a.transitions.length, ?_, ?_⟩
        · show gb + a.transitions.length ∈ (a.concatenate b).finals
          rw [concatenate_finals]
          by_cases hdis : Disjoint (b.finals.image (· + a.transitions.length))
              (b.initials.image (· + a.transitions.length))
          · rw [if_pos hdis]
            exact Finset.mem_image.mpr ⟨gb, hgb, rfl⟩
          · rw [if_neg hdis]
            exact Finset.mem_union_right _ (Finset.mem_image.mpr ⟨gb, hgb, rfl⟩)
        · apply pathN_append (concat_path_low hWFa hWFb u i0 fa hpa)
          exact ⟨t + a.transitions.length,
            (mem_concat_succsOf hWFa hWFb hfal c _).mpr
              (.inr ⟨hfa, ib, hib, t, htb, rfl⟩),
            concat_path_shift vr t gb hpb⟩

theorem lookupRow_keyMap (g : V → List Nat) :
    ∀ (ks : List V) (k : V),
      RowOps.lookupRow (ks.map (fun x => (x, g x))) k =
        if k ∈ ks then some (g k) else none := by
  intro ks
  induction ks with
  | nil =>
      intro k
      simp [RowOps.lookupRow]
  | cons x ks ih =>
      intro k
      rw [List.map_cons, RowOps.lookupRow_cons, ih]
      by_cases h : x = k
      · subst h
        rw [if_pos rfl, if_pos (List.mem_cons_self _ _)]
      · rw [if_neg h]
        by_cases hm : k ∈ ks
        · rw [if_pos hm, if_pos (List.mem_cons_of_mem _ hm)]
        · rw [if_neg hm, if_neg (by
            intro hc
            rcases List.mem_cons.mp hc with hc2 | hc2
            · exact h hc2.symm
            · exact hm hc2)]

theorem lookupRow_eq_none_iff {row : TransRow V} {k : V} :
    RowOps.lookupRow row k = none ↔ k ∉ row.map (fun kv => kv.1) := by
  unfold RowOps.lookupRow
  rw [Option.map_eq_none', List.find?_eq_none]
  constructor
  · intro h hc
    obtain ⟨kv, hkv, hk⟩ := List.mem_map.mp hc
    have := h kv hkv
    rw [decide_eq_true_eq] at this
    exact this hk
  · intro h kv hkv
    rw [decide_eq_true_eq]
    intro hc
    exact h (List.mem_map.mpr ⟨kv, hkv, hc⟩)

theorem lookupRow_append (r1 r2 : TransRow V) (k : V) :
    RowOps.lookupRow (r1 ++ r2) k =
      (RowOps.lookupRow r1 k).or (RowOps.lookupRow r2 k) := by
  unfold RowOps.lookupRow
  rw [List.find?_append]
  rcases h : r1.find? (fun kv => decide (kv.1 = k)) with _ | kv <;> rw [h] <;> simp

theorem mem_kleeneOut {A : NFA V} {k : V} {x : Nat} :
    x ∈ A.kleeneOut k ↔ ∃ i ∈ A.initials, x ∈ A.succsOf i k := by
  unfold NFA.kleeneOut
  rw [Finset.mem_biUnion]
  rfl

theorem kleeneOut_eq_empty {A : NFA V} {k : V} (h : k ∉ A.kleeneKeys) :
    A.kleeneOut k = ∅ := by
  ext x
  simp only [Finset.not_mem_empty, iff_false]
  intro hx
  obtain ⟨i, hi, hxi⟩ := mem_kleeneOut.mp hx
  apply h
  unfold NFA.kleeneKeys
  rw [Finset.mem_biUnion]
  refine ⟨i, hi, ?_⟩
  rw [List.mem_toFinset]
  rw [NFA.succsOf, List.mem_toFinset] at hxi
  exact rowSuccs_key_mem (List.ne_nil_of_mem hxi)

theorem lookupRow_mergeMap (A : NFA V) :
    ∀ (row : TransRow V) (k : V),
      RowOps.lookupRow (row.map (fun kv =>
          if kv.1 ∈ A.kleeneKeys then
            (kv.1, (kv.2.toFinset ∪ A.kleeneOut kv.1).sort (· ≤ ·))
          else kv)) k =
        (RowOps.lookupRow row k).map (fun ts =>
          if k ∈ A.kleeneKeys then (ts.toFinset ∪ A.kleeneOut k).sort (· ≤ ·)
          else ts) := by
  intro row
  induction row with
  | nil =>
      intro k
      simp [RowOps.lookupRow]
  | cons kv rest ih =>
      intro k
      obtain ⟨k0, ts0⟩ := kv
      rw [List.map_cons]
      by_cases hk0 : k0 ∈ A.kleeneKeys
      · rw [if_pos hk0, RowOps.lookupRow_cons, RowOps.lookupRow_cons]
        by_cases hk : k0 = k
        · subst hk
          rw [if_pos rfl, if_pos rfl, Option.map_some', if_pos hk0]
        · rw [if_neg hk, if_neg hk, ih]
      · rw [if_neg hk0, RowOps.lookupRow_cons, RowOps.lookupRow_cons]
        by_cases hk : k0 = k
        · subst hk
          rw [if_pos rfl, if_pos rfl, Option.map_some', if_neg hk0]
        · rw [if_neg hk, if_neg hk, ih]

theorem rowSuccs_mergeRow (A : NFA V) (row : TransRow V) (k : V) :
    (RowOps.rowSuccs (mergeRow A row) k).toFinset =
      (RowOps.rowSuccs row k).toFinset ∪ A.kleeneOut k := by
  unfold mergeRow RowOps.rowSuccs
  rw [lookupRow_append, lookupRow_mergeMap]
  rcases hlk : RowOps.lookupRow row k with _ | ts
  · rw [Option.map_none', Option.none_or]
    have hkeys : k ∉ row.map (fun kv => kv.1) := lookupRow_eq_none_iff.mp hlk
    rw [lookupRow_keyMap (fun y => (A.kleeneOut y).sort (· ≤ ·))]
    by_cases hkk : k ∈ A.kleeneKeys
    · rw [if_pos (by
        rw [List.mem_filter]
        refine ⟨(Finset.mem_sort _).mpr hkk, ?_⟩
        simpa using hkeys)]
      simp only [Option.getD_some]
      rw [Finset.sort_toFinset]
      simp
    · rw [if_neg (by
        intro hc
        rw [List.mem_filter] at hc
        exact hkk ((Finset.mem_sort _).mp hc.1))]
      rw [kleeneOut_eq_empty hkk]
      simp
  · rw [Option.map_some']
    show ((if k ∈ A.kleeneKeys then
        (ts.toFinset ∪ A.kleeneOut k).sort (· ≤ ·) else ts)).toFinset = _
    by_cases hkk : k ∈ A.kleeneKeys
    · rw [if_pos hkk, Finset.sort_toFinset]
      rfl
    · rw [if_neg hkk, kleeneOut_eq_empty hkk]
      show ts.toFinset = ((some ts).getD []).toFinset ∪ ∅
      rw [Finset.union_empty]
      rfl

theorem kleeneRows_length (A : NFA V) :
    ∀ (rows : List (TransRow V)) (i : Nat),
      (kleeneRows A i rows).length = rows.length := by
  intro rows
  induction rows with
  | nil => intro i; rfl
  | cons row rest ih =>
      intro i
      show (_ :: kleeneRows A (i + 1) rest).length = _
      rw [List.length_cons, List.length_cons, ih]

theorem kleeneRows_getD (A : NFA V) :
    ∀ (rows : List (TransRow V)) (i j : Nat), j < rows.length →
      (kleeneRows A i rows).getD j [] =
        if (i + j) ∈ A.finals then mergeRow A (rows.getD j [])
        else rows.getD j [] := by
  intro rows
  induction rows with
  | nil =>
      intro i j hj
      exact absurd hj (by simp)
  | cons row rest ih =>
      intro i j hj
      cases j with
      | zero =>
          show ((if i ∈ A.finals then mergeRow A row else row) :: _).getD 0 [] = _
          rw [List.getD_cons_zero]
          simp only [List.getD_cons_zero, Nat.add_zero]
      | succ j =>
          show ((if i ∈ A.finals then mergeRow A row else row) :: _).getD (j + 1) [] = _
          rw [List.getD_cons_succ, List.getD_cons_succ,
            ih (i + 1) j (by simpa using hj)]
          have : i + 1 + j = i + (j + 1) := by omega
          rw [this]

theorem kleene_transitions (A : NFA V) :
    (A.kleene).transitions =
      kleeneRows A 0 A.transitions
        ++ [(A.kleeneKeys.sort (· ≤ ·)).map
          (fun k => (k, (A.kleeneOut k).sort (· ≤ ·)))] := rfl

theorem kleene_initials (A : NFA V) :
    (A.kleene).initials = {A.transitions.length} := rfl

theorem kleene_finals (A : NFA V) :
    (A.kleene).finals = insert A.transitions.length A.finals := rfl

theorem kleene_succsOf_fresh (A : NFA V) (k : V) :
    (A.kleene).succsOf A.transitions.length k = A.kleeneOut k := by
  have hrow : (A.kleene).transitions.getD A.transitions.length [] =
      (A.kleeneKeys.sort (· ≤ ·)).map
        (fun k => (k, (A.kleeneOut k).sort (· ≤ ·))) := by
    rw [kleene_transitions,
      show A.transitions.length = (kleeneRows A 0 A.transitions).length from
        (kleeneRows_length A A.transitions 0).symm,
      getD_append_len]
  rw [NFA.succsOf, hrow]
  unfold RowOps.rowSuccs
  rw [show (A.kleeneKeys.sort (· ≤ ·)).map
        (fun k => (k, (A.kleeneOut k).sort (· ≤ ·)))
      = (A.kleeneKeys.sort (· ≤ ·)).map
        (fun k => (k, (fun y => (A.kleeneOut y).sort (· ≤ ·)) k)) from rfl,
    lookupRow_keyMap]
  by_cases hkk : k ∈ A.kleeneKeys
  · rw [if_pos ((Finset.mem_sort _).mpr hkk)]
    simp only [Option.getD_some]
    exact Finset.sort_toFinset _ _
  · rw [if_neg (fun hc => hkk ((Finset.mem_sort _).mp hc))]
    rw [kleeneOut_eq_empty hkk]
    rfl

theorem kleene_succsOf_low (A : NFA V) {p : Nat}
    (hp : p < A.transitions.length) (k : V) :
    (A.kleene).succsOf p k =
      if p ∈ A.finals then A.succsOf p k ∪ A.kleeneOut k
      else A.succsOf p k := by
  have hrow : (A.kleene).transitions.getD p [] =
      if p ∈ A.finals then mergeRow A (A.transitions.getD p [])
      else A.transitions.getD p [] := by
    rw [kleene_transitions,
      getD_append_lt (by rw [kleeneRows_length]; exact hp),
      kleeneRows_getD A A.transitions 0 p hp]
    simp only [Nat.zero_add]
  rw [NFA.succsOf, hrow]
  by_cases hf : p ∈ A.finals
  · rw [if_pos hf, if_pos hf, rowSuccs_mergeRow]
    rfl
  · rw [if_neg hf, if_neg hf]
    rfl

theorem kleene_target_lt {A : NFA V} (hWF : A.WF) {p x : Nat} {k : V}
    (h : x ∈ (A.kleene).succsOf p k) : x < A.transitions.length := by
  have hout : ∀ {y : Nat}, y ∈ A.kleeneOut k → y < A.transitions.length := by
    intro y hy
    obtain ⟨i, _, hyi⟩ := mem_kleeneOut.mp hy
    exact succsOf_lt hWF hyi
  rcases Nat.lt_trichotomy p A.transitions.length with hp | hp | hp
  · rw [kleene_succsOf_low A hp] at h
    by_cases hf : p ∈ A.finals
    · rw [if_pos hf] at h
      rcases Finset.mem_union.mp h with h2 | h2
      · exact succsOf_lt hWF h2
      · exact hout h2
    · rw [if_neg hf] at h
      exact succsOf_lt hWF h
  · subst hp
    rw [kleene_succsOf_fresh] at h
    exact hout h
  · exfalso
    have hrow : (A.kleene).transitions.getD p [] = [] := by
      apply List.getD_eq_default
      rw [kleene_transitions, List.length_append, kleeneRows_length]
      simpa using hp
    rw [NFA.succsOf, hrow] at h
    simp [RowOps.rowSuccs, RowOps.lookupRow] at h

theorem kleene_embed {A : NFA V} :
    ∀ (w : List V) (p q : Nat), A.PathN p w q → (A.kleene).PathN p w q := by
  intro w
  induction w with
  | nil =>
      intro p q h
      exact h
  | cons c w ih =>
      rintro p q ⟨t, ht, hpath⟩
      have hp : p < A.transitions.length := lt_of_mem_succsOf ht
      refine ⟨t, ?_, ih t q hpath⟩
      rw [kleene_succsOf_low A hp]
      by_cases hf : p ∈ A.finals
      · rw [if_pos hf]
        exact Finset.mem_union_left _ ht
      · rw [if_neg hf]
        exact ht

theorem kleene_low_stays {A : NFA V} (hWF : A.WF) :
    ∀ (w : List V) (p q : Nat), p < A.transitions.length →
      (A.kleene).PathN p w q → q < A.transitions.length := by
  intro w
  induction w with
  | nil =>
      intro p q hp h
      rw [NFA.pathN_nil] at h
      exact h ▸ hp
  | cons c w ih =>
      rintro p q hp ⟨s, hs, hpath⟩
      exact ih s q (kleene_target_lt hWF hs) hpath

theorem kleene_decomp {A : NFA V} (hWF : A.WF) :
    ∀ (w : List V) (p f : Nat), p < A.transitions.length → f ∈ A.finals →
      (A.kleene).PathN p w f →
      ∃ u ws, w = u ++ List.flatten ws ∧
        (∃ f1 ∈ A.finals, A.PathN p u f1) ∧ ∀ x ∈ ws, A.run x = true := by
  intro w
  induction w with
  | nil =>
      intro p f _ hf h
      rw [NFA.pathN_nil] at h
      exact ⟨[], [], rfl, ⟨f, hf, h⟩, fun x hx => absurd hx (List.not_mem_nil x)⟩
  | cons c w ih =>
      rintro p f hp hf ⟨s, hs, hpath⟩
      rw [kleene_succsOf_low A hp] at hs
      have hstep : s ∈ A.succsOf p c ∨ (p ∈ A.finals ∧ s ∈ A.kleeneOut c) := by
        by_cases hpf : p ∈ A.finals
        · rw [if_pos hpf] at hs
          rcases Finset.mem_union.mp hs with h2 | h2
          · exact .inl h2
          · exact .inr ⟨hpf, h2⟩
        · rw [if_neg hpf] at hs
          exact .inl hs
      rcases hstep with hsa | ⟨hpf, hso⟩
      · obtain ⟨u, ws, hw, ⟨f1, hf1, pu⟩, hws⟩ :=
          ih s f (succsOf_lt hWF hsa) hf hpath
        exact ⟨c :: u, ws, by rw [hw]; rfl, ⟨f1, hf1, s, hsa, pu⟩, hws⟩
      · obtain ⟨i, hi, hsA⟩ := mem_kleeneOut.mp hso
        obtain ⟨u, ws, hw, ⟨f1, hf1, pu⟩, hws⟩ :=
          ih s f (succsOf_lt hWF hsA) hf hpath
        refine ⟨[], (c :: u) :: ws, ?_, ⟨p, hpf, rfl⟩, ?_⟩
        · rw [List.flatten_cons, hw]
          rfl
        · intro x hx
          rcases List.mem_cons.mp hx with hx2 | hx2
          · subst hx2
            rw [run_iff_path]
            exact ⟨i, hi, f1, hf1, s, hsA, pu⟩
          · exact hws x hx2

theorem kleene_back_core {A : NFA V} (hWF : A.WF) :
    ∀ (ws : List (List V)), (∀ x ∈ ws, A.run x = true) →
      ∀ p ∈ A.finals, ∃ f ∈ A.finals, (A.kleene).PathN p (List.flatten ws) f := by
  intro ws
  induction ws with
  | nil =>
      intro _ p hp
      exact ⟨p, hp, rfl⟩
  | cons x rest ih =>
      intro hws p hp
      cases x with
      | nil =>
          rw [List.flatten_cons, List.nil_append]
          exact ih (fun y hy => hws y (List.mem_cons_of_mem _ hy)) p hp
      | cons c xr =>
          have hx := hws (c :: xr) (List.mem_cons_self _ _)
          rw [run_iff_path] at hx
          obtain ⟨i, hi, f1, hf1, t, ht, pA⟩ := hx
          obtain ⟨f, hf, pRest⟩ :=
            ih (fun y hy => hws y (List.mem_cons_of_mem _ hy)) f1 hf1
          refine ⟨f, hf, ?_⟩
          rw [List.flatten_cons, List.cons_append]
          refine ⟨t, ?_, pathN_append (kleene_embed xr t f1 pA) pRest⟩
          rw [kleene_succsOf_low A (hWF.2.1 p hp), if_pos hp]
          exact Finset.mem_union_right _ (mem_kleeneOut.mpr ⟨i, hi, ht⟩)

theorem kleene_back_top {A : NFA V} (hWF : A.WF) :
    ∀ (ws : List (List V)), (∀ x ∈ ws, A.run x = true) →
      ∃ f ∈ insert A.transitions.length A.finals,
        (A.kleene).PathN A.transitions.length (List.flatten ws) f := by
  intro ws
  induction ws with
  | nil =>
      intro _
      exact ⟨A.transitions.length, Finset.mem_insert_self _ _, rfl⟩
  | cons x rest ih =>
      intro hws
      cases x with
      | nil =>
          rw [List.flatten_cons, List.nil_append]
          exact ih (fun y hy => hws y (List.mem_cons_of_mem _ hy))
      | cons c xr =>
          have hx := hws (c :: xr) (List.mem_cons_self _ _)
          rw [run_iff_path] at hx
          obtain ⟨i, hi, f1, hf1, t, ht, pA⟩ := hx
          obtain ⟨f, hf, pRest⟩ :=
            kleene_back_core hWF rest
              (fun y hy => hws y (List.mem_cons_of_mem _ hy)) f1 hf1
          refine ⟨f, Finset.mem_insert_of_mem hf, ?_⟩
          rw [List.flatten_cons, List.cons_append]
          refine ⟨t, ?_, pathN_append (kleene_embed xr t f1 pA) pRest⟩
          rw [kleene_succsOf_fresh]
          exact mem_kleeneOut.mpr ⟨i, hi, ht⟩

theorem kleene_run {A : NFA V} (hWF : A.WF) (w : List V) :
    (A.kleene).run w = true ↔
      ∃ ws : List (List V), w = List.flatten ws ∧ ∀ u ∈ ws, A.run u = true := by
  rw [run_iff_path]
  constructor
  · rintro ⟨i0, hi0, f, hf, hpath⟩
    have hi0l : i0 = A.transitions.length := by
      have : i0 ∈ ({A.transitions.length} : Finset Nat) := hi0
      exact Finset.mem_singleton.mp this
    subst hi0l
    cases w with
    | nil =>
        exact ⟨[], rfl, fun u hu => absurd hu (List.not_mem_nil u)⟩
    | cons c w =>
        obtain ⟨s, hs, hrest⟩ := hpath
        rw [kleene_succsOf_fresh] at hs
        obtain ⟨i, hi, hsA⟩ := mem_kleeneOut.mp hs
        have hsl : s < A.transitions.length := succsOf_lt hWF hsA
        have hfA : f ∈ A.finals := by
          have hf2 : f ∈ insert A.transitions.length A.finals := hf
          rcases Finset.mem_insert.mp hf2 with hf3 | hf3
          · exact absurd (hf3 ▸ kleene_low_stays hWF w s f hsl hrest)
              (lt_irrefl _)
          · exact hf3
        obtain ⟨u, ws, hw, ⟨f1, hf1, pu⟩, hws⟩ :=
          kleene_decomp hWF w s f hsl hfA hrest
        refine ⟨(c :: u) :: ws, ?_, ?_⟩
        · rw [List.flatten_cons, hw]
          rfl
        · intro x hx
          rcases List.mem_cons.mp hx with hx2 | hx2
          · subst hx2
            rw [run_iff_path]
            exact ⟨i, hi, f1, hf1, s, hsA, pu⟩
          · exact hws x hx2
  · rintro ⟨ws, rfl, hws⟩
    obtain ⟨f, hf, hpath⟩ := kleene_back_top hWF ws hws
    exact ⟨A.transitions.length, Finset.mem_singleton.mpr rfl, f, hf, hpath⟩

theorem to_dfa_wfd (A : NFA V) : DFA.WFD A.to_dfa := by
  unfold to_dfa
  by_cases hie : A.is_empty
  · rw [if_pos hie]
    refine ⟨by simp [DFA.new_empty], ?_, ?_⟩
    · intro q hq
      exact absurd hq (Finset.not_mem_empty q)
    · intro row hrow
      simp only [DFA.new_empty, List.mem_singleton] at hrow
      subst hrow
      exact ⟨List.nodup_nil, fun kv hm => absurd hm (List.not_mem_nil kv)⟩
  · rw [if_neg hie]
    split_ifs
    · exact subsetToDfa_wfd _ _
    · exact subsetToDfa_wfd _ _
    · exact subsetToDfa_wfd _ _
    · exact subsetToDfa_wfd _ _

end NFA

/-- C7 (amended): on a well-formed complete NFA, `is_full` is sound: a `true`
answer implies every word over the alphabet is accepted.  (The converse
fails, see the counterexample.) -/
theorem claim_C7 {V : Type} [LinearOrder V] (A : NFA V) (hWF : A.WF)
    (hc : A.is_complete = true) (hf : A.is_full = true) :
    ∀ w : List V, (∀ a ∈ w, a ∈ A.alphabet) → A.run w = true :=
  NFA.is_full_sound hWF hc hf

/-- A one-state full automaton used to witness `claim_C7`. -/
def fullOne : NFA Char :=
  { alphabet := {'a'}, initials := {0}, finals := {0},
    transitions := [[('a', [0])]] }

theorem claim_C7_witness : fullOne.run ['a'] = true :=
  claim_C7 fullOne (by decide) (by decide) (by decide) ['a'] (by decide)

/-- The complete two-state NFA over `{'a'}` on which `is_full` answers
`false` although every word is accepted: both states loop to `{0, 1}` on
`'a'`, state `1` is not final, but state `0` is in every frontier. -/
def fullC7 : NFA Char :=
  { alphabet := {'a'}, initials := {0}, finals := {0},
    transitions := [[('a', [0, 1])], [('a', [0, 1])]] }

theorem fullC7_runFrom (w : List Char) (hw : ∀ a ∈ w, a ∈ fullC7.alphabet) :
    fullC7.runFrom w {0, 1} = true := by
  induction w with
  | nil => decide
  | cons a w ih =>
      have ha : a = 'a' := by
        have := hw a (by simp)
        simpa [fullC7] using this
      subst ha
      have hstep : fullC7.stepSet {0, 1} 'a' = {0, 1} := by decide
      rw [NFA.runFrom, hstep, if_neg (by decide)]
      exact ih (fun b hb => hw b (by simp [hb]))

/-- C7 counterexample: a well-formed *complete* NFA accepting every word over
its alphabet on which `is_full` nevertheless returns `false`, refuting the
claimed equivalence. -/
theorem claim_C7_counterexample :
    fullC7.WF ∧ fullC7.is_complete = true ∧ fullC7.is_full = false ∧
    ∀ w : List Char, (∀ a ∈ w, a ∈ fullC7.alphabet) → fullC7.run w = true := by
  refine ⟨by decide, by decide, by decide, ?_⟩
  intro w hw
  cases w with
  | nil => decide
  | cons a w =>
      have ha : a = 'a' := by
        have := hw a (by simp)
        simpa [fullC7] using this
      subst ha
      have hstep : fullC7.stepSet fullC7.initials 'a' = {0, 1} := by decide
      have hIe : ¬ (fullC7.initials = ∅) := by decide
      rw [NFA.run, if_neg hIe, NFA.runFrom, hstep, if_neg (by decide)]
      exact fullC7_runFrom w (fun b hb => hw b (by simp [hb]))

/-- C1: determinisation preserves the language: on a well-formed NFA, the run
of `to_dfa` agrees with the NFA run on every word over the alphabet. -/
theorem claim_C1 {V : Type} [LinearOrder V] (A : NFA V) (hWF : A.WF)
    (w : List V) (_hw : ∀ a ∈ w, a ∈ A.alphabet) :
    (A.to_dfa).run w = A.run w :=
  NFA.to_dfa_run hWF w

/-- A small two-state NFA used to witness `claim_C1`. -/
def c1nfa : NFA Char :=
  { alphabet := {'a', 'b'}, initials := {0}, finals := {1},
    transitions := [[('a', [0, 1])], [('b', [1])]] }

theorem claim_C1_witness :
    c1nfa.WF ∧ (∀ a ∈ ['a', 'b'], a ∈ c1nfa.alphabet) ∧
      (c1nfa.to_dfa).run ['a', 'b'] = c1nfa.run ['a', 'b'] :=
  ⟨by decide, by decide, claim_C1 c1nfa (by decide) ['a', 'b'] (by decide)⟩

/-- The dispatch of `to_dfa` as the spec words it: the bitmask construction
at the smallest width `W` among 32, 64, 128 with `n < W`, the sorted-set
construction when no such width exists (`n ≥ 128`), the canonical empty DFA
when the language is empty. -/
def to_dfa_spec {V : Type} [LinearOrder V] (A : NFA V) : DFA V :=
  if A.is_empty then DFA.new_empty A.alphabet
  else match [32, 64, 128].find? (fun W => decide (A.transitions.length < W)) with
    | some W => A.small_to_dfa W
    | none => A.big_to_dfa

/-- C5: `to_dfa` dispatches on the state count exactly as the spec says
(smallest sufficient width among 32, 64, 128, else the sorted-set
construction), and for any sufficient width the bitmask construction
`small_to_dfa` accepts exactly the same words as `big_to_dfa`. -/
theorem claim_C5 {V : Type} [LinearOrder V] (A : NFA V) (hWF : A.WF) :
    A.to_dfa = to_dfa_spec A ∧
    ∀ W, A.transitions.length ≤ W → ∀ w : List V,
      (A.small_to_dfa W).run w = (A.big_to_dfa).run w := by
  constructor
  · unfold NFA.to_dfa to_dfa_spec
    by_cases hie : A.is_empty
    · simp [hie]
    · by_cases h32 : A.transitions.length < 32
      · simp [hie, List.find?, h32]
      · by_cases h64 : A.transitions.length < 64
        · simp [hie, List.find?, h32, h64]
        · by_cases h128 : A.transitions.length < 128
          · simp [hie, List.find?, h32, h64, h128]
          · simp [hie, List.find?, h32, h64, h128]
  · intro W hW w
    rw [NFA.small_to_dfa, NFA.big_to_dfa,
      NFA.subsetToDfa_run hWF (NFA.bitKey_inj W hW) w,
      NFA.subsetToDfa_run hWF (NFA.idKey_inj _) w]

/-- A one-state NFA used to witness `claim_C5`. -/
def c5nfa : NFA Char :=
  { alphabet := {'a'}, initials := {0}, finals := {0},
    transitions := [[('a', [0])]] }

theorem claim_C5_witness :
    c5nfa.WF ∧ c5nfa.transitions.length ≤ 32 ∧
      (c5nfa.small_to_dfa 32).run ['a'] = (c5nfa.big_to_dfa).run ['a'] :=
  ⟨by decide, by decide, (claim_C5 c5nfa (by decide)).2 32 (by decide) ['a']⟩

/-- C2: concatenation computes language concatenation: on well-formed NFAs
`a.concatenate b` accepts exactly the words splitting as an `a`-word followed
by a `b`-word, the finals rule (keep only `b`'s finals when they are disjoint
from `b`'s shifted initials, else also keep `a`'s) notwithstanding. -/
theorem claim_C2 {V : Type} [dV : DecidableEq V] [LinearOrder V] (a b : NFA V)
    (hWFa : a.WF) (hWFb : b.WF) (w : List V) :
    (a.concatenate b).run w = true ↔
      ∃ u v, w = u ++ v ∧ a.run u = true ∧ b.run v = true := by
  have hinst : dV = fun a b => instDecidableEq_mathlib a b := Subsingleton.elim _ _
  subst hinst
  exact NFA.concatenate_run hWFa hWFb w

/-- Two one-letter NFAs used to witness `claim_C2`. -/
def c2nfaA : NFA Char :=
  { alphabet := {'a'}, initials := {0}, finals := {1},
    transitions := [[('a', [1])], []] }

/-- The right operand of the `claim_C2` witness. -/
def c2nfaB : NFA Char :=
  { alphabet := {'b'}, initials := {0}, finals := {1},
    transitions := [[('b', [1])], []] }

theorem claim_C2_witness :
    c2nfaA.WF ∧ c2nfaB.WF ∧
      ((c2nfaA.concatenate c2nfaB).run ['a', 'b'] = true ↔
        ∃ u v, ['a', 'b'] = u ++ v ∧ c2nfaA.run u = true ∧ c2nfaB.run v = true) := by
  refine ⟨by decide, by decide, ?_⟩
  exact claim_C2 c2nfaA c2nfaB (by decide) (by decide) ['a', 'b']

/-- C3: the kleene builder computes the Kleene star: on a well-formed NFA,
`A.kleene()` accepts exactly the concatenations of finitely many `A`-words
(the empty word included, as the empty concatenation). -/
theorem claim_C3 {V : Type} [dV : DecidableEq V] [LinearOrder V] (A : NFA V)
    (hWF : A.WF) (w : List V) :
    (A.kleene).run w = true ↔
      ∃ ws : List (List V), w = List.flatten ws ∧ ∀ u ∈ ws, A.run u = true := by
  have hinst : dV = fun a b => instDecidableEq_mathlib a b := Subsingleton.elim _ _
  subst hinst
  exact NFA.kleene_run hWF w

/-- A one-letter NFA used to witness `claim_C3`. -/
def c3nfa : NFA Char :=
  { alphabet := {'a'}, initials := {0}, finals := {1},
    transitions := [[('a', [1])], []] }

theorem claim_C3_witness :
    c3nfa.WF ∧
      ((c3nfa.kleene).run ['a', 'a'] = true ↔
        ∃ ws : List (List Char), ['a', 'a'] = List.flatten ws ∧
          ∀ u ∈ ws, c3nfa.run u = true) :=
  ⟨by decide, claim_C3 c3nfa (by decide) ['a', 'a']⟩

/-- C6: Brzozowski minimisation preserves the language: on a well-formed NFA
the run of `to_dfa().minimize()` (reverse, determinise, reverse, determinise)
agrees with the NFA run on every word. -/
theorem claim_C6 {V : Type} [LinearOrder V] (A : NFA V) (hWF : A.WF)
    (w : List V) : ((A.to_dfa).minimize).run w = A.run w := by
  have hN0 : ((A.to_dfa).to_nfa).WF := DFA.to_nfa_wf (NFA.to_dfa_wfd A)
  have hN1 : (((A.to_dfa).to_nfa).reverse).WF := NFA.reverse_wf hN0
  have hN2 : ((((((A.to_dfa).to_nfa).reverse).to_dfa).to_nfa)).WF :=
    DFA.to_nfa_wf (NFA.to_dfa_wfd _)
  have hN3 : (((((((A.to_dfa).to_nfa).reverse).to_dfa).to_nfa)).reverse).WF :=
    NFA.reverse_wf hN2
  unfold DFA.minimize DFA.reverse DFA.to_dfa
  rw [NFA.to_dfa_run hN3 w, NFA.reverse_run hN2 w, DFA.to_nfa_run _ _,
    NFA.to_dfa_run hN1 w.reverse, NFA.reverse_run hN0 w.reverse,
    List.reverse_reverse, DFA.to_nfa_run _ _, NFA.to_dfa_run hWF w]

/-- A two-state NFA used to witness `claim_C6`. -/
def c6nfa : NFA Char :=
  { alphabet := {'a', 'b'}, initials := {0}, finals := {1},
    transitions := [[('a', [1])], [('b', [0, 1])]] }

theorem claim_C6_witness :
    c6nfa.WF ∧ ((c6nfa.to_dfa).minimize).run ['a', 'b'] = c6nfa.run ['a', 'b'] :=
  ⟨by decide, claim_C6 c6nfa (by decide) ['a', 'b']⟩

/-- C10: parsing the empty string succeeds with the `Empty` regex, whose NFA
rejects every word (including the empty word). -/
theorem claim_C10 (alphabet : Finset Char) :
    Regex.parse_with_alphabet alphabet [] =
        .ok { alphabet := alphabet, regex := .Empty } ∧
    ∀ w : List Char,
      (Regex.to_nfa { alphabet := alphabet, regex := .Empty }).run w = false := by
  refine ⟨rfl, fun w => ?_⟩
  simp only [Regex.to_nfa, Operations.to_nfa]
  simp [NFA.run, NFA.new_empty]

end Rustomaton
